import Mathlib

/-!
Verification development for the `jsonapi` Go package (`src/jsonapi.go`),
a JSON:API document codec: shape-sniffing decode, marshal with
errors/data mutual exclusion, link validation, identifier resolution,
and compound-document full-linkage verification.

Shallow-embedding conventions:
* JSON wire values are modelled by `JValue` (the result of parsing the
  byte sequence); byte-level JSON syntax, string escaping and duplicate
  object keys are abstracted: a Go `map[string]any` built by
  `encoding/json` keeps the last occurrence of a key, which is modelled
  by `lookupLast` over the association list of an object.
* Go `any` fields that hold decoded JSON (attributes, meta, link self or
  related values) are modelled as `JValue`s; equality is JSON-content
  equality.
* Go `nil` pointers inside decoded slices/maps are not represented; the
  typed decode rejects `null` where the Go decoder would store a nil
  pointer (no claim exercises this corner).
* Key matching of the typed decode pass is modelled case-sensitively
  (Go's case-insensitive fallback match is not modelled; no claim
  exercises it).
-/

/-- A parsed JSON value (Go `any` as produced by `encoding/json`).
Numbers are modelled as integers; no claim depends on numeric values. -/
inductive JValue where
  | null : JValue
  | bool (b : Bool) : JValue
  | num (n : Int) : JValue
  | str (s : String) : JValue
  | arr (elems : List JValue) : JValue
  | obj (fields : List (String × JValue)) : JValue

/-- Lookup of a key in a JSON object's association list, keeping the last
occurrence (Go map semantics on duplicate JSON keys). -/
def lookupLast (l : List (String × JValue)) (k : String) : Option JValue :=
  l.foldl (fun acc p => if p.1 = k then some p.2 else acc) none

/-- The error values of the package.  Modelled from the spec: the concrete
error types (`ErrMissingDataField`, `ErrInvalidDataField`,
`ErrMissingLinkFields`, `TypeError`, `PartialLinkageError`) are declared
outside `src/jsonapi.go`; they are represented here as one sum type
following spec section 7, with `jsonErr` standing for a generic
`encoding/json` unmarshal error and `idErr` for an error surfaced from a
custom identifier unmarshaler. -/
inductive Err where
  | missingDataField
  | invalidDataField
  | missingLinkFields
  | typeError (actual : String) (expected : List String)
  | partialLinkage (invalid : List String)
  | jsonErr (msg : String)
  | idErr (msg : String)
deriving DecidableEq, Repr

/-- `document.tryUnmarshalEmpty` (src/jsonapi.go lines 163-196): the
shape-sniff pass.  It generically decodes the bytes (here: inspects the
parsed `JValue`); a non-object input is a generic json error.  On an
object it returns the `hasMany` flag: an empty object fails with the
missing-data error, an absent or `null` `data` key leaves `hasMany`
false, a non-empty object under `data` leaves `hasMany` false, an empty
object under `data` fails with the invalid-data error, an array under
`data` sets `hasMany`; any other `data` value falls through the switch
with no error. -/
def tryUnmarshalEmpty (v : JValue) : Except Err Bool :=
  match v with
  | .obj [] => .error .missingDataField
  | .obj m =>
    match lookupLast m "data" with
    | none => .ok false
    | some .null => .ok false
    | some (.obj []) => .error .invalidDataField
    | some (.obj (_ :: _)) => .ok false
    | some (.arr _) => .ok true
    | some _ => .ok false
  | _ => .error (.jsonErr "cannot unmarshal value into map")

example : tryUnmarshalEmpty (.obj []) = .error .missingDataField := rfl
example : tryUnmarshalEmpty (.obj [("data", .null)]) = .ok false := rfl
example : tryUnmarshalEmpty (.obj [("data", .obj [])]) = .error .invalidDataField := rfl
example : tryUnmarshalEmpty (.obj [("data", .arr [])]) = .ok true := rfl
example : tryUnmarshalEmpty (.obj [("meta", .obj [("x", .num 1)])]) = .ok false := rfl

/-- `jsonAPI` (src/jsonapi.go lines 21-24): version plus optional meta.
`meta` holds a decoded JSON value; `none` is Go `nil`. -/
structure jsonAPI where
  version : String
  meta : Option JValue

/-- The `Error` element type of `document.Errors`.  Modelled from the
spec: the `Error` struct itself is declared outside `src/jsonapi.go`;
error objects are opaque result values, represented by their JSON form. -/
structure ErrorObject where
  raw : JValue

/-- The wire-side view of `Link` (src/jsonapi.go lines 48-56) as it is
embedded in documents and resource objects: `Self`/`Related` are Go
`any` fields holding decoded JSON (`none` is Go `nil`, which is the only
case omitted by `omitempty` on an interface field).  The caller-facing
validation view with dynamic-type dispatch is modelled separately below
as `Link`. -/
structure WireLink where
  self : Option JValue
  related : Option JValue
  first : String
  last : String
  next : String
  previous : String

mutual
/-- `resourceObject` (src/jsonapi.go lines 11-18).  `Attributes`
(`map[string]any`) and `Meta` (`any`) hold decoded JSON; maps are
association lists. -/
inductive resourceObject where
  | mk (id : String) (type : String) (attributes : List (String × JValue))
      (relationships : List (String × document)) (meta : Option JValue)
      (links : Option WireLink) : resourceObject
/-- `document` (src/jsonapi.go lines 103-124). -/
inductive document where
  | mk (hasMany : Bool) (dataOne : Option resourceObject)
      (dataMany : List resourceObject) (meta : Option JValue)
      (jsonapi : Option jsonAPI) (errors : List ErrorObject)
      (links : Option WireLink) (included : List resourceObject) : document
end

def resourceObject.id : resourceObject → String
  | .mk i _ _ _ _ _ => i

def resourceObject.type : resourceObject → String
  | .mk _ t _ _ _ _ => t

def resourceObject.attributes : resourceObject → List (String × JValue)
  | .mk _ _ a _ _ _ => a

def resourceObject.relationships : resourceObject → List (String × document)
  | .mk _ _ _ r _ _ => r

def resourceObject.meta : resourceObject → Option JValue
  | .mk _ _ _ _ m _ => m

def resourceObject.links : resourceObject → Option WireLink
  | .mk _ _ _ _ _ l => l

def document.hasMany : document → Bool
  | .mk h _ _ _ _ _ _ _ => h

def document.dataOne : document → Option resourceObject
  | .mk _ d _ _ _ _ _ _ => d

def document.dataMany : document → List resourceObject
  | .mk _ _ d _ _ _ _ _ => d

def document.meta : document → Option JValue
  | .mk _ _ _ m _ _ _ _ => m

def document.jsonapi : document → Option jsonAPI
  | .mk _ _ _ _ j _ _ _ => j

def document.errors : document → List ErrorObject
  | .mk _ _ _ _ _ e _ _ => e

def document.links : document → Option WireLink
  | .mk _ _ _ _ _ _ l _ => l

def document.included : document → List resourceObject
  | .mk _ _ _ _ _ _ _ i => i

/-- One optional marshal segment: key `k` with `f x` when present,
omitted when `nil`. -/
def marshalOptWith {a : Type} (k : String) (f : a → JValue) : Option a → List (String × JValue)
  | none => []
  | some x => [(k, f x)]

/-- One `omitempty` string marshal segment. -/
def marshalStrEntry (k : String) (s : String) : List (String × JValue) :=
  if s = "" then [] else [(k, .str s)]

/-- One `omitempty` map/slice marshal segment: key `k` with value `v`
when the underlying collection is non-empty. -/
def marshalNonEmpty {a : Type} (k : String) (v : JValue) : List a → List (String × JValue)
  | [] => []
  | _ :: _ => [(k, v)]

/-- Marshaling of a `WireLink`: struct fields in declaration order, each
with `omitempty` (a `nil` interface or empty string is omitted). -/
def marshalLink (l : WireLink) : JValue :=
  .obj (marshalOptWith "self" (fun v => v) l.self ++
    marshalOptWith "related" (fun v => v) l.related ++
    marshalStrEntry "first" l.first ++
    marshalStrEntry "last" l.last ++
    marshalStrEntry "next" l.next ++
    marshalStrEntry "previous" l.previous)

/-- Marshaling of the `jsonAPI` object: `version` has no `omitempty`,
`meta` does. -/
def marshalJsonAPI (j : jsonAPI) : JValue :=
  .obj (("version", .str j.version) :: marshalOptWith "meta" (fun v => v) j.meta)

mutual
/-- Marshaling of a `resourceObject`: struct fields in declaration order
(`id` omitempty, `type` always, `attributes`/`relationships`/`meta`/
`links` omitempty). -/
def marshalResFields : resourceObject → List (String × JValue)
  | .mk i t attrs rels meta links =>
    marshalStrEntry "id" i ++
      (("type", .str t) ::
      (marshalNonEmpty "attributes" (.obj attrs) attrs ++
      (marshalNonEmpty "relationships" (.obj (marshalRelList rels)) rels ++
      (marshalOptWith "meta" (fun v => v) meta ++
      marshalOptWith "links" marshalLink links))))

def marshalRelList : List (String × document) → List (String × JValue)
  | [] => []
  | (k, d) :: rest => (k, marshalDoc d) :: marshalRelList rest

def marshalResList : List resourceObject → List JValue
  | [] => []
  | ro :: rest => .obj (marshalResFields ro) :: marshalResList rest

/-- `document.MarshalJSON` (src/jsonapi.go lines 134-161): with a
non-empty `Errors` list the `data` key is omitted entirely; otherwise
`data` comes first (a sequence when `hasMany`, else the optional single
resource, `null` when unset), followed by the embedded alias fields
`meta`, `jsonapi`, `errors`, `links`, `included`, each `omitempty`. -/
def marshalDoc : document → JValue
  | .mk hasMany dataOne dataMany meta japi errors links included =>
    let rest : List (String × JValue) :=
      marshalOptWith "meta" (fun v => v) meta ++
      (marshalOptWith "jsonapi" marshalJsonAPI japi ++
      (marshalNonEmpty "errors" (.arr (errors.map (fun e => e.raw))) errors ++
      (marshalOptWith "links" marshalLink links ++
      marshalNonEmpty "included" (.arr (marshalResList included)) included)))
    match errors with
    | _ :: _ => .obj rest
    | [] =>
      match hasMany with
      | true => .obj (("data", .arr (marshalResList dataMany)) :: rest)
      | false =>
        .obj (("data", match dataOne with
          | none => .null
          | some ro => .obj (marshalResFields ro)) :: rest)
end

/-- Marshaling of a `resourceObject` as a JSON object. -/
def marshalRes (ro : resourceObject) : JValue :=
  .obj (marshalResFields ro)

/-- Go zero value of `resourceObject` (fresh allocation by the decoder). -/
def zeroRes : resourceObject := .mk "" "" [] [] none none

/-- Go zero value of `WireLink`. -/
def zeroLink : WireLink := ⟨none, none, "", "", "", ""⟩

/-- Go zero value of `jsonAPI`. -/
def zeroJsonAPI : jsonAPI := ⟨"", none⟩

/-- Go zero value of `document` (fresh allocation by the decoder). -/
def zeroDoc : document := .mk false none [] none none [] none []

/-- `encoding/json` decode of a value into a Go `any` field: a JSON
`null` resets the interface to `nil`, everything else is stored as the
decoded generic value. -/
def decodeAnyValue (v : JValue) : Option JValue :=
  match v with
  | .null => none
  | w => some w

/-- `encoding/json` decode of object entries into a `Link` value
(`WireLink` view): `self`/`related` are `any` (a JSON `null` resets them
to `nil`, any other value is stored as decoded), the pagination fields
are `string` (a JSON `null` is a no-op, a non-string value is a type
error), unknown keys are ignored. -/
def decodeLinkEntries : List (String × JValue) → WireLink → Except Err WireLink
  | [], acc => .ok acc
  | ("self", v) :: rest, acc =>
    decodeLinkEntries rest { acc with self := decodeAnyValue v }
  | ("related", v) :: rest, acc =>
    decodeLinkEntries rest { acc with related := decodeAnyValue v }
  | ("first", v) :: rest, acc =>
    match v with
    | .null => decodeLinkEntries rest acc
    | .str s => decodeLinkEntries rest { acc with first := s }
    | _ => .error (.jsonErr "cannot unmarshal value into string")
  | ("last", v) :: rest, acc =>
    match v with
    | .null => decodeLinkEntries rest acc
    | .str s => decodeLinkEntries rest { acc with last := s }
    | _ => .error (.jsonErr "cannot unmarshal value into string")
  | ("next", v) :: rest, acc =>
    match v with
    | .null => decodeLinkEntries rest acc
    | .str s => decodeLinkEntries rest { acc with next := s }
    | _ => .error (.jsonErr "cannot unmarshal value into string")
  | ("previous", v) :: rest, acc =>
    match v with
    | .null => decodeLinkEntries rest acc
    | .str s => decodeLinkEntries rest { acc with previous := s }
    | _ => .error (.jsonErr "cannot unmarshal value into string")
  | _ :: rest, acc => decodeLinkEntries rest acc

/-- `encoding/json` decode of a `*Link` field value. -/
def decodeLinkValue (v : JValue) (cur : Option WireLink) : Except Err (Option WireLink) :=
  match v with
  | .null => .ok none
  | .obj l =>
    match decodeLinkEntries l (match cur with | some w => w | none => zeroLink) with
    | .ok w => .ok (some w)
    | .error e => .error e
  | _ => .error (.jsonErr "cannot unmarshal value into Link")

/-- `encoding/json` decode of object entries into a `jsonAPI` value:
`version` is a `string`, `meta` is `any`. -/
def decodeJsonAPIEntries : List (String × JValue) → jsonAPI → Except Err jsonAPI
  | [], acc => .ok acc
  | ("version", v) :: rest, acc =>
    match v with
    | .null => decodeJsonAPIEntries rest acc
    | .str s => decodeJsonAPIEntries rest { acc with version := s }
    | _ => .error (.jsonErr "cannot unmarshal value into string")
  | ("meta", v) :: rest, acc =>
    decodeJsonAPIEntries rest { acc with meta := decodeAnyValue v }
  | _ :: rest, acc => decodeJsonAPIEntries rest acc

/-- `encoding/json` decode of a `*jsonAPI` field value. -/
def decodeJsonAPIValue (v : JValue) (cur : Option jsonAPI) : Except Err (Option jsonAPI) :=
  match v with
  | .null => .ok none
  | .obj l =>
    match decodeJsonAPIEntries l (match cur with | some j => j | none => zeroJsonAPI) with
    | .ok j => .ok (some j)
    | .error e => .error e
  | _ => .error (.jsonErr "cannot unmarshal value into jsonAPI")

/-- `encoding/json` decode of an `Errors` slice value.  Elements are
opaque (spec-modelled `ErrorObject`), so each element is kept as its
JSON form. -/
def decodeErrorsValue (v : JValue) : Except Err (List ErrorObject) :=
  match v with
  | .null => .ok []
  | .arr xs => .ok (xs.map ErrorObject.mk)
  | _ => .error (.jsonErr "cannot unmarshal value into slice of Error")

/-- Rebuild a document with the given `hasMany` flag (the flag set by the
sniff pass survives the fallthrough to the single-resource typed decode). -/
def document.withHasMany : document → Bool → document
  | .mk _ d1 dm me ja er li inc, hm => .mk hm d1 dm me ja er li inc

mutual
/-- `encoding/json` decode of a value into a (pointed-to) fresh
`resourceObject`. -/
def decodeRes : JValue → Except Err resourceObject
  | .obj l => decodeResEntries l "" "" [] [] none none
  | _ => .error (.jsonErr "cannot unmarshal value into resourceObject")

/-- `encoding/json` decode of object entries into a `resourceObject`,
processed in wire order with the Go merge semantics per field kind
(`string` fields ignore `null`, map and slice fields are reset by `null`,
map entries are appended, `any` fields are overwritten). -/
def decodeResEntries : List (String × JValue) → String → String →
    List (String × JValue) → List (String × document) → Option JValue →
    Option WireLink → Except Err resourceObject
  | [], i, t, attrs, rels, me, li => .ok (.mk i t attrs rels me li)
  | ("id", v) :: rest, i, t, attrs, rels, me, li =>
    match v with
    | .null => decodeResEntries rest i t attrs rels me li
    | .str s => decodeResEntries rest s t attrs rels me li
    | _ => .error (.jsonErr "cannot unmarshal value into string")
  | ("type", v) :: rest, i, t, attrs, rels, me, li =>
    match v with
    | .null => decodeResEntries rest i t attrs rels me li
    | .str s => decodeResEntries rest i s attrs rels me li
    | _ => .error (.jsonErr "cannot unmarshal value into string")
  | ("attributes", v) :: rest, i, t, attrs, rels, me, li =>
    match v with
    | .null => decodeResEntries rest i t [] rels me li
    | .obj al => decodeResEntries rest i t (attrs ++ al) rels me li
    | _ => .error (.jsonErr "cannot unmarshal value into map")
  | ("relationships", v) :: rest, i, t, attrs, rels, me, li =>
    match v with
    | .null => decodeResEntries rest i t attrs [] me li
    | .obj rl =>
      match decodeRelEntries rl with
      | .ok newRels => decodeResEntries rest i t attrs (rels ++ newRels) me li
      | .error e => .error e
    | _ => .error (.jsonErr "cannot unmarshal value into map")
  | ("meta", v) :: rest, i, t, attrs, rels, _, li =>
    decodeResEntries rest i t attrs rels (decodeAnyValue v) li
  | ("links", v) :: rest, i, t, attrs, rels, me, li =>
    match decodeLinkValue v li with
    | .ok li2 => decodeResEntries rest i t attrs rels me li2
    | .error e => .error e
  | _ :: rest, i, t, attrs, rels, me, li =>
    decodeResEntries rest i t attrs rels me li

/-- `encoding/json` decode of a JSON array into `[]*resourceObject`.
A `null` element (a Go nil pointer) is not represented and rejected. -/
def decodeResList : List JValue → Except Err (List resourceObject)
  | [] => .ok []
  | v :: rest =>
    match decodeRes v with
    | .ok ro =>
      match decodeResList rest with
      | .ok ros => .ok (ro :: ros)
      | .error e => .error e
    | .error e => .error e

/-- `encoding/json` decode of a JSON object into
`map[string]*document`: every value goes through the custom
`document.UnmarshalJSON`.  A `null` value (a Go nil pointer) is not
represented and rejected. -/
def decodeRelEntries : List (String × JValue) →
    Except Err (List (String × document))
  | [] => .ok []
  | (k, v) :: rest =>
    match decodeDoc v with
    | .ok d =>
      match decodeRelEntries rest with
      | .ok ds => .ok ((k, d) :: ds)
      | .error e => .error e
    | .error e => .error e

/-- The typed decode pass of `document.UnmarshalJSON`: object entries in
wire order into the aux struct whose `data` slot is a slice when
`slotMany` is true and a single optional resource otherwise, merged with
the embedded alias fields. -/
def decodeDocEntries : Bool → List (String × JValue) → Option resourceObject →
    List resourceObject → Option JValue → Option jsonAPI → List ErrorObject →
    Option WireLink → List resourceObject → Except Err document
  | slotMany, [], d1, dm, me, ja, er, li, inc => .ok (.mk slotMany d1 dm me ja er li inc)
  | true, ("data", v) :: rest, d1, _, me, ja, er, li, inc =>
    match v with
    | .null => decodeDocEntries true rest d1 [] me ja er li inc
    | .arr xs =>
      match decodeResList xs with
      | .ok ros => decodeDocEntries true rest d1 ros me ja er li inc
      | .error e => .error e
    | _ => .error (.jsonErr "cannot unmarshal value into slice of resourceObject")
  | false, ("data", v) :: rest, d1, dm, me, ja, er, li, inc =>
    match v with
    | .null => decodeDocEntries false rest none dm me ja er li inc
    | .obj rl =>
      match decodeResEntries rl
          (match d1 with | some r => r | none => zeroRes).id
          (match d1 with | some r => r | none => zeroRes).type
          (match d1 with | some r => r | none => zeroRes).attributes
          (match d1 with | some r => r | none => zeroRes).relationships
          (match d1 with | some r => r | none => zeroRes).meta
          (match d1 with | some r => r | none => zeroRes).links with
      | .ok ro => decodeDocEntries false rest (some ro) dm me ja er li inc
      | .error e => .error e
    | _ => .error (.jsonErr "cannot unmarshal value into resourceObject")
  | slotMany, ("meta", v) :: rest, d1, dm, _, ja, er, li, inc =>
    decodeDocEntries slotMany rest d1 dm (decodeAnyValue v) ja er li inc
  | slotMany, ("jsonapi", v) :: rest, d1, dm, me, ja, er, li, inc =>
    match decodeJsonAPIValue v ja with
    | .ok ja2 => decodeDocEntries slotMany rest d1 dm me ja2 er li inc
    | .error e => .error e
  | slotMany, ("errors", v) :: rest, d1, dm, me, ja, _, li, inc =>
    match decodeErrorsValue v with
    | .ok er2 => decodeDocEntries slotMany rest d1 dm me ja er2 li inc
    | .error e => .error e
  | slotMany, ("links", v) :: rest, d1, dm, me, ja, er, li, inc =>
    match decodeLinkValue v li with
    | .ok li2 => decodeDocEntries slotMany rest d1 dm me ja er li2 inc
    | .error e => .error e
  | slotMany, ("included", v) :: rest, d1, dm, me, ja, er, li, _ =>
    match v with
    | .null => decodeDocEntries slotMany rest d1 dm me ja er li []
    | .arr xs =>
      match decodeResList xs with
      | .ok ros => decodeDocEntries slotMany rest d1 dm me ja er li ros
      | .error e => .error e
    | _ => .error (.jsonErr "cannot unmarshal value into slice of resourceObject")
  | slotMany, _ :: rest, d1, dm, me, ja, er, li, inc =>
    decodeDocEntries slotMany rest d1 dm me ja er li inc

/-- `document.UnmarshalJSON` (src/jsonapi.go lines 199-231): run the
shape sniff, then the typed decode with the `data` slot shaped by the
sniffed `hasMany` flag; when the many-shaped decode fails, fall through
to the single-resource decode (the `hasMany` flag set by the sniff is
kept either way). -/
def decodeDoc : JValue → Except Err document
  | .obj m =>
    match tryUnmarshalEmpty (.obj m) with
    | .error e => .error e
    | .ok true =>
      match decodeDocEntries true m none [] none none [] none [] with
      | .ok d => .ok d
      | .error _ =>
        match decodeDocEntries false m none [] none none [] none [] with
        | .ok d => .ok (d.withHasMany true)
        | .error e => .error e
    | .ok false => decodeDocEntries false m none [] none none [] none []
  | _ => .error (.jsonErr "cannot unmarshal value into map")
end

/-- An optional Go `any` value that is not a "present JSON null": the
decoder collapses a present `null` to an absent value, so only such
values are faithfully representable Go states. -/
def notNullOpt : Option JValue → Bool
  | some .null => false
  | _ => true

/-- A `WireLink` is representable iff its `any` fields are not present
JSON nulls. -/
def wfLink (l : WireLink) : Bool :=
  notNullOpt l.self && notNullOpt l.related

/-- A `jsonAPI` object is representable iff its meta is not a present
JSON null. -/
def wfJsonAPI (j : jsonAPI) : Bool :=
  notNullOpt j.meta

/-- Representability of an optional `Link` value. -/
def wfOptLink : Option WireLink → Bool
  | none => true
  | some l => wfLink l

/-- Representability of an optional `jsonAPI` value. -/
def wfOptJsonAPI : Option jsonAPI → Bool
  | none => true
  | some j => wfJsonAPI j

mutual
/-- Round-trippable resource objects: `any` fields hold no present JSON
null and all nested relationship documents are round-trippable. -/
def wfRes : resourceObject → Bool
  | .mk _ _ _ rels me li =>
    notNullOpt me &&
    wfOptLink li &&
    wfRelList rels

def wfRelList : List (String × document) → Bool
  | [] => true
  | (_, d) :: rest => wfDoc d && wfRelList rest

def wfResList : List resourceObject → Bool
  | [] => true
  | ro :: rest => wfRes ro && wfResList rest

/-- Round-trippable documents: no errors (a non-empty `Errors` list
suppresses the `data` key on encode), the primary-data field matching
the shape flag is the only one populated, `any` fields hold no present
JSON null, and all contained resources are round-trippable. -/
def wfDoc : document → Bool
  | .mk hm d1 dm me ja er li inc =>
    (match er with | [] => true | _ :: _ => false) &&
    (match hm with
      | true => (match d1 with | none => true | some _ => false)
      | false => (match dm with | [] => true | _ :: _ => false)) &&
    notNullOpt me &&
    wfOptJsonAPI ja &&
    wfOptLink li &&
    (match d1 with | none => true | some ro => wfRes ro) &&
    wfResList dm &&
    wfResList inc
end

theorem decodeAnyValue_of_ne_null (v : JValue) (h : v ≠ .null) :
    decodeAnyValue v = some v := by
  cases v <;> first | (exact absurd rfl h) | rfl

theorem ite_empty_self (s : String) : (if s = "" then "" else s) = s := by
  split <;> simp_all

theorem decodeLinkEntries_self (o : Option JValue) (rest : List (String × JValue))
    (acc : WireLink) (h : notNullOpt o = true) (h2 : acc.self = none) :
    decodeLinkEntries (marshalOptWith "self" (fun v => v) o ++ rest) acc =
      decodeLinkEntries rest { acc with self := o } := by
  obtain ⟨s0, r0, f0, l0, n0, p0⟩ := acc
  change s0 = none at h2
  subst h2
  match o with
  | none => rfl
  | some .null => exact absurd h (by decide)
  | some (.bool b) => rfl
  | some (.num n) => rfl
  | some (.str s) => rfl
  | some (.arr xs) => rfl
  | some (.obj fs) => rfl

theorem decodeLinkEntries_related (o : Option JValue) (rest : List (String × JValue))
    (acc : WireLink) (h : notNullOpt o = true) (h2 : acc.related = none) :
    decodeLinkEntries (marshalOptWith "related" (fun v => v) o ++ rest) acc =
      decodeLinkEntries rest { acc with related := o } := by
  obtain ⟨s0, r0, f0, l0, n0, p0⟩ := acc
  change r0 = none at h2
  subst h2
  match o with
  | none => rfl
  | some .null => exact absurd h (by decide)
  | some (.bool b) => rfl
  | some (.num n) => rfl
  | some (.str s) => rfl
  | some (.arr xs) => rfl
  | some (.obj fs) => rfl

theorem decodeLinkEntries_first (s : String) (rest : List (String × JValue))
    (acc : WireLink) (h2 : acc.first = "") :
    decodeLinkEntries (marshalStrEntry "first" s ++ rest) acc =
      decodeLinkEntries rest { acc with first := s } := by
  obtain ⟨s0, r0, f0, l0, n0, p0⟩ := acc
  change f0 = "" at h2
  subst h2
  by_cases h : s = ""
  · subst h; rfl
  · rw [show marshalStrEntry "first" s = [("first", .str s)] from if_neg h]; rfl

theorem decodeLinkEntries_last (s : String) (rest : List (String × JValue))
    (acc : WireLink) (h2 : acc.last = "") :
    decodeLinkEntries (marshalStrEntry "last" s ++ rest) acc =
      decodeLinkEntries rest { acc with last := s } := by
  obtain ⟨s0, r0, f0, l0, n0, p0⟩ := acc
  change l0 = "" at h2
  subst h2
  by_cases h : s = ""
  · subst h; rfl
  · rw [show marshalStrEntry "last" s = [("last", .str s)] from if_neg h]; rfl

theorem decodeLinkEntries_next (s : String) (rest : List (String × JValue))
    (acc : WireLink) (h2 : acc.next = "") :
    decodeLinkEntries (marshalStrEntry "next" s ++ rest) acc =
      decodeLinkEntries rest { acc with next := s } := by
  obtain ⟨s0, r0, f0, l0, n0, p0⟩ := acc
  change n0 = "" at h2
  subst h2
  by_cases h : s = ""
  · subst h; rfl
  · rw [show marshalStrEntry "next" s = [("next", .str s)] from if_neg h]; rfl

theorem decodeLinkEntries_previous (s : String) (rest : List (String × JValue))
    (acc : WireLink) (h2 : acc.previous = "") :
    decodeLinkEntries (marshalStrEntry "previous" s ++ rest) acc =
      decodeLinkEntries rest { acc with previous := s } := by
  obtain ⟨s0, r0, f0, l0, n0, p0⟩ := acc
  change p0 = "" at h2
  subst h2
  by_cases h : s = ""
  · subst h; rfl
  · rw [show marshalStrEntry "previous" s = [("previous", .str s)] from if_neg h]; rfl

/-- Decoding a marshaled representable `WireLink` recovers it exactly. -/
theorem decodeLink_roundtrip (l : WireLink) (h : wfLink l = true) :
    decodeLinkValue (marshalLink l) none = .ok (some l) := by
  have hs : notNullOpt l.self = true := by
    have h' := h; simp [wfLink, Bool.and_eq_true] at h'; exact h'.1
  have hr : notNullOpt l.related = true := by
    have h' := h; simp [wfLink, Bool.and_eq_true] at h'; exact h'.2
  simp only [marshalLink, decodeLinkValue, List.append_assoc]
  rw [← List.append_nil (marshalStrEntry "previous" l.previous)]
  rw [decodeLinkEntries_self _ _ _ hs rfl, decodeLinkEntries_related _ _ _ hr rfl,
    decodeLinkEntries_first _ _ _ rfl, decodeLinkEntries_last _ _ _ rfl,
    decodeLinkEntries_next _ _ _ rfl, decodeLinkEntries_previous _ _ _ rfl]
  rfl

theorem decodeJsonAPI_roundtrip (j : jsonAPI) (h : wfJsonAPI j = true) :
    decodeJsonAPIValue (marshalJsonAPI j) none = .ok (some j) := by
  obtain ⟨ver, me⟩ := j
  match me with
  | none => rfl
  | some .null => exact Bool.noConfusion h
  | some (.bool b) => rfl
  | some (.num n) => rfl
  | some (.str s) => rfl
  | some (.arr xs) => rfl
  | some (.obj fs) => rfl

theorem foldl_lookup_skip (l : List (String × JValue)) (k : String) (acc : Option JValue)
    (h : ∀ p ∈ l, p.1 ≠ k) :
    l.foldl (fun acc p => if p.1 = k then some p.2 else acc) acc = acc := by
  induction l generalizing acc with
  | nil => rfl
  | cons a rest ih =>
    simp only [List.foldl_cons]
    rw [if_neg (h a (by simp))]
    exact ih _ (fun p hp => h p (by simp [hp]))

theorem lookupLast_cons_self (k : String) (v : JValue) (rest : List (String × JValue))
    (h : ∀ p ∈ rest, p.1 ≠ k) :
    lookupLast ((k, v) :: rest) k = some v := by
  simp only [lookupLast, List.foldl_cons, if_pos rfl]
  exact foldl_lookup_skip rest k (some v) h

theorem mem_marshalOptWith {a : Type} (k : String) (f : a → JValue) (o : Option a)
    (p : String × JValue) (h : p ∈ marshalOptWith k f o) : p.1 = k := by
  cases o <;> simp_all [marshalOptWith]

theorem mem_marshalStrEntry (k s : String) (p : String × JValue)
    (h : p ∈ marshalStrEntry k s) : p.1 = k := by
  unfold marshalStrEntry at h
  split at h <;> simp_all

theorem mem_marshalNonEmpty {a : Type} (k : String) (v : JValue) (l : List a)
    (p : String × JValue) (h : p ∈ marshalNonEmpty k v l) : p.1 = k := by
  cases l <;> simp_all [marshalNonEmpty]

/-- All keys of the fixed (alias) document fields are distinct from
`data`. -/
theorem docRest_ne_data (me : Option JValue) (ja : Option jsonAPI) (erv : JValue)
    (er : List ErrorObject) (li : Option WireLink) (incv : JValue)
    (inc : List resourceObject) :
    ∀ p ∈ (marshalOptWith "meta" (fun v => v) me ++
      (marshalOptWith "jsonapi" marshalJsonAPI ja ++
      (marshalNonEmpty "errors" erv er ++
      (marshalOptWith "links" marshalLink li ++
      marshalNonEmpty "included" incv inc)))), p.1 ≠ "data" := by
  intro p hp hc
  simp only [List.mem_append] at hp
  rcases hp with h | h | h | h | h
  · have hk := mem_marshalOptWith _ _ _ _ h; rw [hc] at hk; exact absurd hk (by decide)
  · have hk := mem_marshalOptWith _ _ _ _ h; rw [hc] at hk; exact absurd hk (by decide)
  · have hk := mem_marshalNonEmpty _ _ _ _ h; rw [hc] at hk; exact absurd hk (by decide)
  · have hk := mem_marshalOptWith _ _ _ _ h; rw [hc] at hk; exact absurd hk (by decide)
  · have hk := mem_marshalNonEmpty _ _ _ _ h; rw [hc] at hk; exact absurd hk (by decide)

theorem sniff_data_null (rest : List (String × JValue))
    (h : ∀ p ∈ rest, p.1 ≠ "data") :
    tryUnmarshalEmpty (.obj (("data", .null) :: rest)) = .ok false := by
  simp only [tryUnmarshalEmpty]
  rw [lookupLast_cons_self _ _ _ h]

theorem sniff_data_arr (xs : List JValue) (rest : List (String × JValue))
    (h : ∀ p ∈ rest, p.1 ≠ "data") :
    tryUnmarshalEmpty (.obj (("data", .arr xs) :: rest)) = .ok true := by
  simp only [tryUnmarshalEmpty]
  rw [lookupLast_cons_self _ _ _ h]

theorem marshalResFields_eq_cons (ro : resourceObject) :
    ∃ p l, marshalResFields ro = p :: l := by
  obtain ⟨i, t, attrs, rels, me, li⟩ := ro
  simp only [marshalResFields, marshalStrEntry]
  by_cases hi : i = ""
  · rw [if_pos hi]; exact ⟨_, _, rfl⟩
  · rw [if_neg hi]; exact ⟨_, _, rfl⟩

theorem sniff_data_res (ro : resourceObject) (rest : List (String × JValue))
    (h : ∀ p ∈ rest, p.1 ≠ "data") :
    tryUnmarshalEmpty (.obj (("data", marshalRes ro) :: rest)) = .ok false := by
  obtain ⟨p, l, hpl⟩ := marshalResFields_eq_cons ro
  simp only [marshalRes]
  rw [hpl]
  simp only [tryUnmarshalEmpty]
  rw [lookupLast_cons_self _ _ _ h]

theorem dde_data_one_null (rest : List (String × JValue)) (d1 dm me ja er li inc) :
    decodeDocEntries false (("data", JValue.null) :: rest) d1 dm me ja er li inc =
      decodeDocEntries false rest none dm me ja er li inc := by
  simp only [decodeDocEntries]

theorem dde_data_one_res (rl : List (String × JValue)) (ro : resourceObject)
    (rest : List (String × JValue)) (dm me ja er li inc)
    (h : decodeResEntries rl "" "" [] [] none none = .ok ro) :
    decodeDocEntries false (("data", JValue.obj rl) :: rest) none dm me ja er li inc =
      decodeDocEntries false rest (some ro) dm me ja er li inc := by
  simp only [decodeDocEntries, zeroRes]
  rw [show (resourceObject.mk "" "" [] [] none none).id = "" from rfl]
  rw [show (resourceObject.mk "" "" [] [] none none).type = "" from rfl]
  rw [show (resourceObject.mk "" "" [] [] none none).attributes = [] from rfl]
  rw [show (resourceObject.mk "" "" [] [] none none).relationships = [] from rfl]
  rw [show (resourceObject.mk "" "" [] [] none none).meta = none from rfl]
  rw [show (resourceObject.mk "" "" [] [] none none).links = none from rfl]
  rw [h]

theorem dde_data_many (xs : List JValue) (ros : List resourceObject)
    (rest : List (String × JValue)) (d1 dm me ja er li inc)
    (h : decodeResList xs = .ok ros) :
    decodeDocEntries true (("data", JValue.arr xs) :: rest) d1 dm me ja er li inc =
      decodeDocEntries true rest d1 ros me ja er li inc := by
  simp only [decodeDocEntries]
  rw [h]

theorem dde_meta (sm : Bool) (o : Option JValue) (rest : List (String × JValue))
    (d1 dm ja er li inc) (h : notNullOpt o = true) :
    decodeDocEntries sm (marshalOptWith "meta" (fun v => v) o ++ rest) d1 dm none ja er li inc =
      decodeDocEntries sm rest d1 dm o ja er li inc := by
  cases sm <;>
    match o with
    | none => rfl
    | some .null => exact absurd h (by decide)
    | some (.bool b) => rfl
    | some (.num n) => rfl
    | some (.str s) => rfl
    | some (.arr xs) => rfl
    | some (.obj fs) => rfl

theorem dde_jsonapi (sm : Bool) (o : Option jsonAPI) (rest : List (String × JValue))
    (d1 dm me er li inc) (h : wfOptJsonAPI o = true) :
    decodeDocEntries sm (marshalOptWith "jsonapi" marshalJsonAPI o ++ rest) d1 dm me none er li inc =
      decodeDocEntries sm rest d1 dm me o er li inc := by
  match o with
  | none => rfl
  | some j =>
    cases sm <;>
      (simp only [marshalOptWith, List.cons_append, List.nil_append, decodeDocEntries]
       rw [decodeJsonAPI_roundtrip j h]
       rfl)

theorem dde_links (sm : Bool) (o : Option WireLink) (rest : List (String × JValue))
    (d1 dm me ja er inc) (h : wfOptLink o = true) :
    decodeDocEntries sm (marshalOptWith "links" marshalLink o ++ rest) d1 dm me ja er none inc =
      decodeDocEntries sm rest d1 dm me ja er o inc := by
  match o with
  | none => rfl
  | some l =>
    cases sm <;>
      (simp only [marshalOptWith, List.cons_append, List.nil_append, decodeDocEntries]
       rw [decodeLink_roundtrip l h]
       rfl)

theorem dde_included (sm : Bool) (xs : List JValue) (ros : List resourceObject)
    (rest : List (String × JValue)) (d1 dm me ja er li inc)
    (h : decodeResList xs = .ok ros) :
    decodeDocEntries sm (("included", JValue.arr xs) :: rest) d1 dm me ja er li inc =
      decodeDocEntries sm rest d1 dm me ja er li ros := by
  cases sm <;>
    (simp only [decodeDocEntries]
     rw [h])

theorem dre_id (s : String) (rest : List (String × JValue)) (t attrs rels me li) :
    decodeResEntries (marshalStrEntry "id" s ++ rest) "" t attrs rels me li =
      decodeResEntries rest s t attrs rels me li := by
  by_cases h : s = ""
  · subst h; rfl
  · rw [show marshalStrEntry "id" s = [("id", .str s)] from if_neg h]; rfl

theorem dre_type (t2 : String) (rest : List (String × JValue)) (i t attrs rels me li) :
    decodeResEntries (("type", JValue.str t2) :: rest) i t attrs rels me li =
      decodeResEntries rest i t2 attrs rels me li := rfl

theorem dre_attributes (attrs : List (String × JValue)) (rest : List (String × JValue))
    (i t rels me li) :
    decodeResEntries (marshalNonEmpty "attributes" (.obj attrs) attrs ++ rest) i t [] rels me li =
      decodeResEntries rest i t attrs rels me li := by
  cases attrs with
  | nil => rfl
  | cons a l => rfl

theorem dre_relationships (rels : List (String × document)) (rest : List (String × JValue))
    (i t attrs me li) (h : decodeRelEntries (marshalRelList rels) = .ok rels) :
    decodeResEntries
        (marshalNonEmpty "relationships" (.obj (marshalRelList rels)) rels ++ rest)
        i t attrs [] me li =
      decodeResEntries rest i t attrs rels me li := by
  cases rels with
  | nil => rfl
  | cons a l =>
    simp only [marshalNonEmpty, List.cons_append, List.nil_append, decodeResEntries]
    rw [h]
    rfl

theorem dre_meta (o : Option JValue) (rest : List (String × JValue)) (i t attrs rels li)
    (h : notNullOpt o = true) :
    decodeResEntries (marshalOptWith "meta" (fun v => v) o ++ rest) i t attrs rels none li =
      decodeResEntries rest i t attrs rels o li := by
  match o with
  | none => rfl
  | some .null => exact absurd h (by decide)
  | some (.bool b) => rfl
  | some (.num n) => rfl
  | some (.str s) => rfl
  | some (.arr xs) => rfl
  | some (.obj fs) => rfl

theorem dre_links (o : Option WireLink) (rest : List (String × JValue)) (i t attrs rels me)
    (h : wfOptLink o = true) :
    decodeResEntries (marshalOptWith "links" marshalLink o ++ rest) i t attrs rels me none =
      decodeResEntries rest i t attrs rels me o := by
  match o with
  | none => rfl
  | some l =>
    simp only [marshalOptWith, List.cons_append, List.nil_append, decodeResEntries]
    rw [decodeLink_roundtrip l h]
    rfl

/-- Processing the marshaled fixed (alias) document fields of an
error-free document recovers them exactly. -/
theorem dde_rest (sm : Bool) (d1 : Option resourceObject) (dm : List resourceObject)
    (me : Option JValue) (ja : Option jsonAPI) (li : Option WireLink)
    (inc : List resourceObject)
    (hme : notNullOpt me = true)
    (hja : wfOptJsonAPI ja = true)
    (hli : wfOptLink li = true)
    (hinc : decodeResList (marshalResList inc) = .ok inc) :
    decodeDocEntries sm
        (marshalOptWith "meta" (fun v => v) me ++
          (marshalOptWith "jsonapi" marshalJsonAPI ja ++
          (marshalNonEmpty "errors" (.arr (List.map (fun e => e.raw) ([] : List ErrorObject)))
              ([] : List ErrorObject) ++
          (marshalOptWith "links" marshalLink li ++
          marshalNonEmpty "included" (.arr (marshalResList inc)) inc))))
        d1 dm none none [] none [] =
      .ok (.mk sm d1 dm me ja [] li inc) := by
  rw [dde_meta _ _ _ _ _ _ _ _ _ hme]
  rw [dde_jsonapi _ _ _ _ _ _ _ _ _ hja]
  rw [show marshalNonEmpty "errors"
      (JValue.arr (List.map (fun e => e.raw) ([] : List ErrorObject)))
      ([] : List ErrorObject) = ([] : List (String × JValue)) from rfl]
  rw [List.nil_append]
  rw [dde_links _ _ _ _ _ _ _ _ _ hli]
  cases inc with
  | nil => cases sm <;> rfl
  | cons a l =>
    rw [show marshalNonEmpty "included" (JValue.arr (marshalResList (a :: l))) (a :: l) =
      [("included", JValue.arr (marshalResList (a :: l)))] from rfl]
    rw [dde_included _ _ _ _ _ _ _ _ _ _ _ hinc]
    cases sm <;> rfl

theorem of_band_left {a b : Bool} (h : (a && b) = true) : a = true := by
  rcases a <;> rcases b <;> simp_all

theorem of_band_right {a b : Bool} (h : (a && b) = true) : b = true := by
  rcases a <;> rcases b <;> simp_all

theorem wfRes_parts (i t : String) (attrs : List (String × JValue))
    (rels : List (String × document)) (me : Option JValue) (li : Option WireLink)
    (h : wfRes (.mk i t attrs rels me li) = true) :
    notNullOpt me = true ∧ wfOptLink li = true ∧ wfRelList rels = true := by
  rw [wfRes.eq_def] at h
  simp only [Bool.and_eq_true] at h
  exact ⟨h.1.1, h.1.2, h.2⟩

theorem wfRelList_cons (k : String) (d : document) (rest : List (String × document))
    (h : wfRelList ((k, d) :: rest) = true) :
    wfDoc d = true ∧ wfRelList rest = true := by
  rw [wfRelList.eq_def] at h
  simp only [Bool.and_eq_true] at h
  exact h

theorem wfResList_cons (ro : resourceObject) (rest : List resourceObject)
    (h : wfResList (ro :: rest) = true) :
    wfRes ro = true ∧ wfResList rest = true := by
  rw [wfResList.eq_def] at h
  simp only [Bool.and_eq_true] at h
  exact h

theorem wfDoc_parts (hm : Bool) (d1 : Option resourceObject) (dm : List resourceObject)
    (me : Option JValue) (ja : Option jsonAPI) (er : List ErrorObject)
    (li : Option WireLink) (inc : List resourceObject)
    (h : wfDoc (.mk hm d1 dm me ja er li inc) = true) :
    er = [] ∧
      (hm = true → d1 = none) ∧
      (hm = false → dm = []) ∧
      notNullOpt me = true ∧
      wfOptJsonAPI ja = true ∧
      wfOptLink li = true ∧
      (∀ ro, d1 = some ro → wfRes ro = true) ∧
      wfResList dm = true ∧
      wfResList inc = true := by
  rw [wfDoc.eq_def] at h
  simp only [Bool.and_eq_true] at h
  obtain ⟨⟨⟨⟨⟨⟨⟨her, hshape⟩, hme⟩, hja⟩, hli⟩, hd1⟩, hdm⟩, hinc⟩ := h
  refine ⟨?_, ?_, ?_, hme, hja, hli, ?_, hdm, hinc⟩
  · cases er with
    | nil => rfl
    | cons e es => exact Bool.noConfusion her
  · intro hhm
    subst hhm
    cases d1 with
    | none => rfl
    | some ro => exact Bool.noConfusion hshape
  · intro hhm
    subst hhm
    cases dm with
    | nil => rfl
    | cons a l => exact Bool.noConfusion hshape
  · intro ro hro
    subst hro
    exact hd1

mutual
/-- Decoding a marshaled representable resource object recovers it
exactly. -/
theorem rt_res : ∀ (ro : resourceObject), wfRes ro = true →
    decodeRes (marshalRes ro) = .ok ro
  | .mk i t attrs rels me li, h => by
    obtain ⟨hme, hli, hrels⟩ := wfRes_parts i t attrs rels me li h
    simp only [marshalRes, marshalResFields, decodeRes]
    rw [← List.append_nil (marshalOptWith "links" marshalLink li)]
    rw [dre_id, dre_type, dre_attributes]
    rw [dre_relationships _ _ _ _ _ _ _ (rt_relList rels hrels)]
    rw [dre_meta _ _ _ _ _ _ _ hme]
    rw [dre_links _ _ _ _ _ _ _ hli]
    rfl
termination_by ro _ => sizeOf ro

/-- Decoding a marshaled list of representable relationship documents
recovers it exactly. -/
theorem rt_relList : ∀ (rels : List (String × document)), wfRelList rels = true →
    decodeRelEntries (marshalRelList rels) = .ok rels
  | [], _ => rfl
  | (k, d) :: rest, h => by
    obtain ⟨h1, h2⟩ := wfRelList_cons k d rest h
    simp only [marshalRelList, decodeRelEntries]
    rw [rt_doc d h1, rt_relList rest h2]
termination_by rels _ => sizeOf rels

/-- Decoding a marshaled list of representable resource objects recovers
it exactly. -/
theorem rt_resList : ∀ (ros : List resourceObject), wfResList ros = true →
    decodeResList (marshalResList ros) = .ok ros
  | [], _ => rfl
  | ro :: rest, h => by
    obtain ⟨h1, h2⟩ := wfResList_cons ro rest h
    simp only [marshalResList, decodeResList]
    have hr := rt_res ro h1
    simp only [marshalRes] at hr
    rw [hr, rt_resList rest h2]
termination_by ros _ => sizeOf ros

/-- Decoding a marshaled representable document recovers it exactly. -/
theorem rt_doc : ∀ (d : document), wfDoc d = true →
    decodeDoc (marshalDoc d) = .ok d
  | .mk hm d1 dm me ja er li inc, h => by
    obtain ⟨her, hs1, hs2, hme, hja, hli, hd1, hdm, hinc⟩ :=
      wfDoc_parts hm d1 dm me ja er li inc h
    subst her
    cases hm with
    | true =>
      have hd1n := hs1 rfl
      subst hd1n
      simp only [marshalDoc, decodeDoc]
      rw [sniff_data_arr _ _ (docRest_ne_data me ja _ [] li _ inc)]
      rw [dde_data_many _ _ _ _ _ _ _ _ _ _ (rt_resList dm hdm)]
      rw [dde_rest true none dm me ja li inc hme hja hli (rt_resList inc hinc)]
    | false =>
      have hdmn := hs2 rfl
      subst hdmn
      cases d1 with
      | none =>
        simp only [marshalDoc, decodeDoc]
        rw [sniff_data_null _ (docRest_ne_data me ja _ [] li _ inc)]
        rw [dde_data_one_null]
        rw [dde_rest false none [] me ja li inc hme hja hli (rt_resList inc hinc)]
      | some ro =>
        have hro : decodeResEntries (marshalResFields ro) "" "" [] [] none none = .ok ro := by
          have h2 := rt_res ro (hd1 ro rfl)
          simpa only [marshalRes, decodeRes] using h2
        simp only [marshalDoc, decodeDoc]
        have hsn := sniff_data_res ro
          (marshalOptWith "meta" (fun v => v) me ++
            (marshalOptWith "jsonapi" marshalJsonAPI ja ++
            (marshalNonEmpty "errors" (.arr (List.map (fun e => e.raw) ([] : List ErrorObject)))
                ([] : List ErrorObject) ++
            (marshalOptWith "links" marshalLink li ++
            marshalNonEmpty "included" (.arr (marshalResList inc)) inc))))
          (docRest_ne_data me ja _ [] li _ inc)
        simp only [marshalRes] at hsn
        rw [hsn]
        rw [dde_data_one_res _ _ _ _ _ _ _ _ _ hro]
        rw [dde_rest false (some ro) [] me ja li inc hme hja hli (rt_resList inc hinc)]
termination_by d _ => sizeOf d
end

/-- The reflection view of a Go `meta` value as inspected by `checkMeta`
(src/jsonapi.go lines 26-38): `nil`, or the pointer-dereferenced kind of
the dynamic type together with its printed type name (`derefType`
collapses pointer indirection). -/
inductive MetaV where
  | nil
  | structLike (name : String)
  | mapLike (name : String)
  | other (name : String)
deriving DecidableEq, Repr

/-- `checkMeta` (src/jsonapi.go lines 26-38): `nil` is valid, a
struct-like or map-like kind is valid, anything else is a type error
naming the actual type and the expected set. -/
def checkMeta : MetaV → Option Err
  | .nil => none
  | .structLike _ => none
  | .mapLike _ => none
  | .other n => some (.typeError n ["struct", "map"])

/-- The dynamic value of `Link.Self` / `Link.Related` as dispatched by
`checkLinkValue`: a `*LinkObject` (href plus meta), a `string`, `nil`,
or any other dynamic type (carrying its printed name). -/
inductive LinkField where
  | nil
  | str (s : String)
  | linkObject (href : String) (meta : MetaV)
  | other (typeName : String)
deriving DecidableEq, Repr

/-- `checkLinkValue` (src/jsonapi.go lines 58-76): dispatch on the
dynamic type, validating a `LinkObject`'s meta, and report whether the
value is empty. -/
def checkLinkValue : LinkField → Except Err Bool
  | .linkObject href meta =>
    match checkMeta meta with
    | some e => .error e
    | none => .ok (href == "")
  | .str s => .ok (s == "")
  | .nil => .ok true
  | .other t => .error (.typeError t ["*LinkObject", "string"])

/-- The caller-facing `Link` value checked before marshaling: `Self` and
`Related` hold dynamic values. -/
structure Link where
  self : LinkField
  related : LinkField
  first : String
  last : String
  next : String
  previous : String
deriving DecidableEq, Repr

/-- `Link.check` (src/jsonapi.go lines 78-100).  Go mutates the receiver;
the model returns the updated link. -/
def Link.check (l : Link) : Except Err Link :=
  match checkLinkValue l.self with
  | .error e => .error e
  | .ok selfIsEmpty =>
    match checkLinkValue l.related with
    | .error e => .error e
    | .ok relatedIsEmpty =>
      if selfIsEmpty && relatedIsEmpty then .error .missingLinkFields
      else if selfIsEmpty then .ok { l with self := .nil }
      else if relatedIsEmpty then .ok { l with related := .nil }
      else .ok l

example : (Link.check ⟨.str "", .str "", "", "", "", ""⟩) = .error .missingLinkFields := rfl
example : (Link.check ⟨.str "/a", .str "", "", "", "", ""⟩) =
  .ok ⟨.str "/a", .nil, "", "", "", ""⟩ := rfl

/-- Modelled from the spec: the identifier decode target.  The reflection
layer that drives identifier resolution is outside `src/jsonapi.go`
(only the `UnmarshalIdentifier` interface, lines 347-356, is declared
there); a target either implements the unmarshal-from-string capability
(a function from the wire string to an error or a new state), is a plain
string slot, or is some other type. -/
inductive IdTarget where
  | custom (f : String → Except String String) (state : String)
  | plainString (s : String)
  | other (typeName : String)

/-- Modelled from the spec: the unmarshal order of operations for the
primary field (doc comment of `UnmarshalIdentifier`, src/jsonapi.go
lines 347-356): (1) use `UnmarshalID` if implemented, surfacing its
error unchanged; (2) else assign the wire string directly if the target
is a plain string; (3) else fail with a type error. -/
def unmarshalIdentifier : IdTarget → String → Except Err IdTarget
  | .custom f _, wire =>
    match f wire with
    | .ok s2 => .ok (.custom f s2)
    | .error e => .error (.idErr e)
  | .plainString _, wire => .ok (.plainString wire)
  | .other t, _ => .error (.typeError t ["string"])

/-!
The linkage verifier (`verifyFullLinkage`, src/jsonapi.go lines 238-323)
works on a pointer graph: primary data, relationship targets and
included entries are `*resourceObject` pointers, and the optional
aliasing pass writes through them.  The embedding makes the pointer
structure explicit: a `Ref` is a heap address, the heap maps every
address to a resource cell, and a cell's relationship documents hold
addresses.  Only the fields the verifier reads (`Type`, `ID`,
`Relationships`, and the data slots of relationship documents) are
carried.  Nil pointers are not represented.  Go map iteration order
(over `Relationships` and over `includeGraph`) is modelled as list
order; claims about the orphan set are stated as set membership.
The recursion of the inner `visit` closure is modelled with explicit
fuel; `verifyFullLinkage` supplies fuel equal to the node count of the
include graph, which is shown sufficient (the fuel-exhausted branch is
unreachable, mirroring termination of the Go recursion).
-/

/-- A heap address (a `*resourceObject` pointer). -/
abbrev Ref := Nat

/-- A relationship document as the verifier sees it: shape flag plus the
primary-data pointer slot(s). -/
structure HDoc where
  hasMany : Bool
  dataOne : Option Ref
  dataMany : List Ref
deriving DecidableEq, Repr

/-- A resource cell as the verifier sees it: type, id and the
relationship documents. -/
structure HRes where
  type : String
  id : String
  relationships : List (String × HDoc)
deriving DecidableEq, Repr

/-- The pointer heap: every address holds a resource cell. -/
def Heap : Type := Ref → HRes

/-- Writing one heap cell (`*ro = ...`). -/
def updateHeap (h : Heap) (r : Ref) (v : HRes) : Heap :=
  fun c => if c = r then v else h c

/-- The top-level document handed to the verifier: its own primary data
plus the `Included` list. -/
structure HDocTop where
  data : HDoc
  included : List Ref

/-- `getResourceObjectSlice` (src/jsonapi.go lines 246-254). -/
def getResourceObjectSlice (d : HDoc) : List Ref :=
  match d.hasMany with
  | true => d.dataMany
  | false =>
    match d.dataOne with
    | none => []
    | some r => [r]

/-- `resourceIdentifier` (src/jsonapi.go lines 256-258). -/
def resourceIdentifier (ro : HRes) : String :=
  "\x7bType: " ++ ro.type ++ ", ID: " ++ ro.id ++ "\x7d"

/-- `includeNode` (src/jsonapi.go lines 261-265); `included` is the
pointer to the included resource cell. -/
structure includeNode where
  included : Ref
  relatedTo : List Ref
  visited : Bool
deriving DecidableEq, Repr

/-- The flattened relationship targets of a resource
(src/jsonapi.go lines 270-274). -/
def relatedRefs : List (String × HDoc) → List Ref
  | [] => []
  | (_, rel) :: rest => getResourceObjectSlice rel ++ relatedRefs rest

/-- Go map assignment `includeGraph[k] = n`: replace an existing binding
or append. -/
def graphInsert : List (String × includeNode) → String → includeNode →
    List (String × includeNode)
  | [], k, n => [(k, n)]
  | (k2, n2) :: rest, k, n =>
    if k2 = k then (k, n) :: rest else (k2, n2) :: graphInsert rest k n

/-- Go map lookup `includeGraph[k]`. -/
def graphFind : List (String × includeNode) → String → Option includeNode
  | [], _ => none
  | (k2, n) :: rest, k => if k2 = k then some n else graphFind rest k

/-- Building the include graph (src/jsonapi.go lines 267-277). -/
def buildGraph (heap : Heap) : List Ref → List (String × includeNode) →
    List (String × includeNode)
  | [], g => g
  | inc :: rest, g =>
    buildGraph heap rest
      (graphInsert g (resourceIdentifier (heap inc))
        ⟨inc, relatedRefs (heap inc).relationships, false⟩)

/-- Setting the visited flag of a node. -/
def markVisited : List (String × includeNode) → String →
    List (String × includeNode)
  | [], _ => []
  | (k2, n) :: rest, k =>
    if k2 = k then (k2, ⟨n.included, n.relatedTo, true⟩) :: rest
    else (k2, n) :: markVisited rest k

/-- The number of unvisited nodes of the include graph. -/
def unvisitedCount (g : List (String × includeNode)) : Nat :=
  (g.filter (fun kv => !kv.2.visited)).length

/-- The verifier's mutable state: the include graph (visited flags live
in its nodes) and the heap (mutated by aliasing). -/
structure VerifyState where
  graph : List (String × includeNode)
  heap : Heap

/-- The `visit` closure (src/jsonapi.go lines 280-299), with explicit
fuel bounding the recursion depth into neighbours: look the resource up
by identity; a miss is ignored; aliasing (`*ro = *node.included`)
happens before the visited check, on every visit; a visited node is not
recursed into; otherwise the node is marked and every related resource
is visited in order.  With fuel at least the unvisited-node count the
fuel-exhausted branch (which marks but does not recurse) is never
taken. -/
def visit (al : Bool) : Nat → VerifyState → Ref → VerifyState
  | 0, st, r =>
    match graphFind st.graph (resourceIdentifier (st.heap r)) with
    | none => st
    | some node =>
      let h2 := if al then updateHeap st.heap r (st.heap node.included) else st.heap
      match node.visited with
      | true => ⟨st.graph, h2⟩
      | false => ⟨markVisited st.graph (resourceIdentifier (st.heap r)), h2⟩
  | fuel + 1, st, r =>
    match graphFind st.graph (resourceIdentifier (st.heap r)) with
    | none => st
    | some node =>
      let h2 := if al then updateHeap st.heap r (st.heap node.included) else st.heap
      match node.visited with
      | true => ⟨st.graph, h2⟩
      | false =>
        node.relatedTo.foldl (visit al fuel)
          ⟨markVisited st.graph (resourceIdentifier (st.heap r)), h2⟩

/-- The seed loop (src/jsonapi.go lines 301-309): for each primary-data
resource, visit every resource in the primary data of each of its
relationships, reading the relationships from the current heap. -/
def seedVisits (al : Bool) (fuel : Nat) : VerifyState → List Ref → VerifyState
  | st, [] => st
  | st, p :: ps =>
    seedVisits al fuel
      ((relatedRefs (st.heap p).relationships).foldl (visit al fuel) st) ps

/-- `verifyFullLinkage` (src/jsonapi.go lines 241-323): empty `included`
is trivially valid; otherwise build the include graph, traverse from the
primary data, and fail with a partial-linkage error carrying the
identifiers of unvisited nodes.  Returns the verdict together with the
final heap (the in-place aliasing effect). -/
def verifyFullLinkage (heap : Heap) (top : HDocTop) (aliasRelationships : Bool) :
    Option Err × Heap :=
  match top.included with
  | [] => (none, heap)
  | _ :: _ =>
    let g := buildGraph heap top.included []
    let st := seedVisits aliasRelationships g.length ⟨g, heap⟩
      (getResourceObjectSlice top.data)
    let invalidResources := (st.graph.filter (fun kv => !kv.2.visited)).map Prod.fst
    match invalidResources with
    | [] => (none, st.heap)
    | _ :: _ => (some (.partialLinkage invalidResources), st.heap)

/-- A key is visited in a graph. -/
def visitedIn (g : List (String × includeNode)) (k : String) : Prop :=
  ∃ n, graphFind g k = some n ∧ n.visited = true

/-- Two graphs have the same keys, included pointers and edges (they may
differ in visited flags). -/
def sameShape (g g2 : List (String × includeNode)) : Prop :=
  ∀ k, (graphFind g k).map (fun n => (n.included, n.relatedTo)) =
    (graphFind g2 k).map (fun n => (n.included, n.relatedTo))

theorem sameShape_refl (g : List (String × includeNode)) : sameShape g g :=
  fun _ => rfl

theorem sameShape_trans {g1 g2 g3 : List (String × includeNode)}
    (h1 : sameShape g1 g2) (h2 : sameShape g2 g3) : sameShape g1 g3 :=
  fun k => (h1 k).trans (h2 k)

theorem graphFind_mark_self (g : List (String × includeNode)) (k : String) :
    graphFind (markVisited g k) k =
      (graphFind g k).map (fun n => ⟨n.included, n.relatedTo, true⟩) := by
  induction g with
  | nil => rfl
  | cons p rest ih =>
    obtain ⟨k3, n⟩ := p
    simp only [markVisited, graphFind]
    by_cases h : k3 = k
    · simp [h, graphFind]
    · simp [h, graphFind, ih]

theorem graphFind_mark_other (g : List (String × includeNode)) (k k2 : String)
    (hne : k2 ≠ k) : graphFind (markVisited g k) k2 = graphFind g k2 := by
  induction g with
  | nil => rfl
  | cons p rest ih =>
    obtain ⟨k3, n⟩ := p
    simp only [markVisited, graphFind]
    by_cases h : k3 = k
    · subst h
      rw [if_pos rfl]
      simp only [graphFind]
      rw [if_neg (fun hh => hne hh.symm), if_neg (fun hh => hne hh.symm)]
    · rw [if_neg h]
      simp only [graphFind]
      by_cases h2 : k3 = k2
      · simp [h2]
      · simp [h2, ih]

theorem sameShape_mark (g : List (String × includeNode)) (k : String) :
    sameShape g (markVisited g k) := by
  intro k2
  by_cases h : k2 = k
  · subst h
    rw [graphFind_mark_self]
    cases graphFind g k2 <;> simp
  · rw [graphFind_mark_other _ _ _ h]

theorem visitedIn_mark_of (g : List (String × includeNode)) (k k2 : String)
    (h : visitedIn g k2) : visitedIn (markVisited g k) k2 := by
  obtain ⟨n, hn, hv⟩ := h
  by_cases he : k2 = k
  · subst he
    rw [visitedIn, graphFind_mark_self, hn]
    exact ⟨_, rfl, rfl⟩
  · rw [visitedIn, graphFind_mark_other _ _ _ he]
    exact ⟨n, hn, hv⟩

theorem visitedIn_mark_self (g : List (String × includeNode)) (k : String)
    (n : includeNode) (hn : graphFind g k = some n) :
    visitedIn (markVisited g k) k := by
  rw [visitedIn, graphFind_mark_self, hn]
  exact ⟨_, rfl, rfl⟩

theorem unvisited_mark_le (g : List (String × includeNode)) (k : String) :
    unvisitedCount (markVisited g k) ≤ unvisitedCount g := by
  induction g with
  | nil => exact Nat.le_refl _
  | cons p rest ih =>
    obtain ⟨k3, n⟩ := p
    simp only [markVisited]
    by_cases h : k3 = k
    · rw [if_pos h]
      simp only [unvisitedCount, List.filter_cons]
      cases hv : n.visited <;> simp [unvisitedCount] <;> omega
    · rw [if_neg h]
      simp only [unvisitedCount, List.filter_cons] at ih ⊢
      cases hv : (!n.visited) <;> simp [hv] <;> omega

theorem one_le_unvisited (g : List (String × includeNode)) (k : String)
    (n : includeNode) (hn : graphFind g k = some n) (hv : n.visited = false) :
    1 ≤ unvisitedCount g := by
  induction g with
  | nil => exact absurd hn (by simp [graphFind])
  | cons p rest ih =>
    obtain ⟨k3, n3⟩ := p
    simp only [graphFind] at hn
    by_cases h3 : k3 = k
    · rw [if_pos h3] at hn
      injection hn with hn
      subst hn
      simp [unvisitedCount, List.filter_cons, hv]
    · rw [if_neg h3] at hn
      have := ih hn
      simp only [unvisitedCount, List.filter_cons] at this ⊢
      cases (!n3.visited) <;> simp <;> omega

theorem unvisited_mark_lt (g : List (String × includeNode)) (k : String)
    (n : includeNode) (hn : graphFind g k = some n) (hv : n.visited = false) :
    unvisitedCount (markVisited g k) < unvisitedCount g := by
  induction g with
  | nil => exact absurd hn (by simp [graphFind])
  | cons p rest ih =>
    obtain ⟨k3, n3⟩ := p
    simp only [graphFind] at hn
    simp only [markVisited]
    by_cases h3 : k3 = k
    · rw [if_pos h3] at hn ⊢
      injection hn with hn
      subst hn
      have h1 : unvisitedCount ((k3, (⟨n3.included, n3.relatedTo, true⟩ : includeNode)) :: rest) =
          unvisitedCount rest := by
        simp [unvisitedCount, List.filter_cons]
      have h2 : unvisitedCount ((k3, n3) :: rest) = unvisitedCount rest + 1 := by
        simp [unvisitedCount, List.filter_cons, hv]
      rw [h1, h2]
      omega
    · rw [if_neg h3] at hn
      rw [if_neg h3]
      have := ih hn
      simp only [unvisitedCount, List.filter_cons] at this ⊢
      cases (!n3.visited) <;> simp <;> omega

/-- Facts preserved by the traversal (heap unchanged without aliasing,
graph shape unchanged, visited set grows, unvisited count shrinks). -/
def Pres (st st2 : VerifyState) : Prop :=
  st2.heap = st.heap ∧ sameShape st.graph st2.graph ∧
    (∀ k, visitedIn st.graph k → visitedIn st2.graph k) ∧
    unvisitedCount st2.graph ≤ unvisitedCount st.graph

theorem Pres.refl (st : VerifyState) : Pres st st :=
  ⟨Eq.refl _, sameShape_refl _, fun _ h => h, Nat.le_refl _⟩

theorem Pres.trans {s1 s2 s3 : VerifyState} (h1 : Pres s1 s2) (h2 : Pres s2 s3) :
    Pres s1 s3 :=
  ⟨h2.1.trans h1.1, sameShape_trans h1.2.1 h2.2.1,
    fun k hk => h2.2.2.1 k (h1.2.2.1 k hk), Nat.le_trans h2.2.2.2 h1.2.2.2⟩

theorem foldl_preserve {P : VerifyState → Prop} (f : VerifyState → Ref → VerifyState)
    (step : ∀ st r, P st → P (f st r)) :
    ∀ (rs : List Ref) (st : VerifyState), P st → P (rs.foldl f st)
  | [], _, h => h
  | r :: rs, st, h => foldl_preserve f step rs (f st r) (step st r h)

theorem pres_mark (st : VerifyState) (k : String) :
    Pres st ⟨markVisited st.graph k, st.heap⟩ :=
  ⟨rfl, sameShape_mark _ _, fun k2 h => visitedIn_mark_of _ _ _ h, unvisited_mark_le _ _⟩

theorem visit_pres (fuel : Nat) : ∀ (st : VerifyState) (r : Ref),
    Pres st (visit false fuel st r) := by
  induction fuel with
  | zero =>
    intro st r
    unfold visit
    split
    · exact Pres.refl st
    · next node heq =>
      cases hv : node.visited
      · exact pres_mark st _
      · exact Pres.refl st
  | succ fuel ih =>
    intro st r
    unfold visit
    split
    · exact Pres.refl st
    · next node heq =>
      cases hv : node.visited
      · exact foldl_preserve _ (fun st2 r2 h => h.trans (ih st2 r2)) _ _ (pres_mark st _)
      · exact Pres.refl st

theorem sameShape_some {g g2 : List (String × includeNode)} (h : sameShape g g2)
    (k : String) (n : includeNode) (hn : graphFind g k = some n) :
    ∃ n2, graphFind g2 k = some n2 ∧ n2.included = n.included ∧
      n2.relatedTo = n.relatedTo := by
  have hthis := h k
  rw [hn] at hthis
  cases hg : graphFind g2 k with
  | none =>
    rw [hg] at hthis
    exact absurd hthis (by simp [Option.map])
  | some n2 =>
    rw [hg] at hthis
    have h2 : (n.included, n.relatedTo) = (n2.included, n2.relatedTo) :=
      Option.some.inj hthis
    exact ⟨n2, rfl, (congrArg Prod.fst h2).symm, (congrArg Prod.snd h2).symm⟩

theorem visit_hit (fuel : Nat) (st : VerifyState) (r : Ref) (n : includeNode)
    (hn : graphFind st.graph (resourceIdentifier (st.heap r)) = some n) :
    visitedIn (visit false fuel st r).graph (resourceIdentifier (st.heap r)) := by
  cases fuel with
  | zero =>
    unfold visit
    rw [hn]
    dsimp only
    cases hv : n.visited
    · exact visitedIn_mark_self _ _ _ hn
    · exact ⟨n, hn, hv⟩
  | succ fuel =>
    unfold visit
    rw [hn]
    dsimp only
    cases hv : n.visited
    · exact foldl_preserve _
        (fun st2 r2 h => (visit_pres fuel st2 r2).2.2.1 _ h) _ _
        (visitedIn_mark_self _ _ _ hn)
    · exact ⟨n, hn, hv⟩

theorem foldl_hit (fuel : Nat) (h0 : Heap) :
    ∀ (rs : List Ref) (st : VerifyState) (r : Ref), r ∈ rs → st.heap = h0 →
    ∀ n, graphFind st.graph (resourceIdentifier (h0 r)) = some n →
    visitedIn ((rs.foldl (visit false fuel) st)).graph (resourceIdentifier (h0 r)) := by
  intro rs
  induction rs with
  | nil => intro st r hr; exact absurd hr (by simp)
  | cons a rs ih =>
    intro st r hr hh n hn
    simp only [List.foldl_cons]
    rcases List.mem_cons.mp hr with he | hm
    · subst he
      rw [← hh] at hn
      have h1 := visit_hit fuel st r n hn
      rw [hh] at h1
      exact foldl_preserve _
        (fun st2 r2 h => (visit_pres fuel st2 r2).2.2.1 _ h) _ _ h1
    · have hp := visit_pres fuel st a
      obtain ⟨n2, hn2, _, _⟩ := sameShape_some hp.2.1 _ _ hn
      exact ih (visit false fuel st a) r hm (hp.1.trans hh) n2 hn2

theorem sameShape_symm {g g2 : List (String × includeNode)} (h : sameShape g g2) :
    sameShape g2 g := fun k => (h k).symm

theorem visitedIn_mark_inv (g : List (String × includeNode)) (k k2 : String)
    (h : visitedIn (markVisited g k) k2) : k2 = k ∨ visitedIn g k2 := by
  by_cases he : k2 = k
  · exact Or.inl he
  · rw [visitedIn, graphFind_mark_other _ _ _ he] at h
    exact Or.inr h

theorem foldl_preserve_mem {P : VerifyState → Prop} (f : VerifyState → Ref → VerifyState) :
    ∀ (rs : List Ref), (∀ st r, r ∈ rs → P st → P (f st r)) →
      ∀ (st : VerifyState), P st → P (rs.foldl f st)
  | [], _, _, h => h
  | r :: rs, step, st, h =>
    foldl_preserve_mem f rs (fun st2 r2 hm hp => step st2 r2 (List.mem_cons_of_mem _ hm) hp)
      (f st r) (step st r (List.mem_cons_self _ _) h)

/-- Closedness except for an excused set: every visited node's neighbours
that have graph nodes are visited too. -/
def CE (h0 : Heap) (g : List (String × includeNode)) (S : String → Prop) : Prop :=
  ∀ k n, graphFind g k = some n → n.visited = true → ¬ S k →
    ∀ r ∈ n.relatedTo, ∀ n2, graphFind g (resourceIdentifier (h0 r)) = some n2 →
      visitedIn g (resourceIdentifier (h0 r))

theorem CE_mark (h0 : Heap) (g : List (String × includeNode)) (S : String → Prop)
    (k : String) (hce : CE h0 g S) :
    CE h0 (markVisited g k) (fun k2 => S k2 ∨ k2 = k) := by
  intro k2 n2 hfind hvis hS r hr n3 hfind3
  have hne : k2 ≠ k := fun he => hS (Or.inr he)
  rw [graphFind_mark_other _ _ _ hne] at hfind
  have hex : ∃ n4, graphFind g (resourceIdentifier (h0 r)) = some n4 := by
    by_cases he : resourceIdentifier (h0 r) = k
    · rw [he, graphFind_mark_self] at hfind3
      cases hg : graphFind g k with
      | none => rw [hg] at hfind3; exact absurd hfind3 (by simp [Option.map])
      | some n4 => exact ⟨n4, he ▸ hg⟩
    · rw [graphFind_mark_other _ _ _ he] at hfind3
      exact ⟨n3, hfind3⟩
  obtain ⟨n4, hn4⟩ := hex
  exact visitedIn_mark_of _ _ _
    (hce k2 n2 hfind hvis (fun hs => hS (Or.inl hs)) r hr n4 hn4)

theorem visit_CE (h0 : Heap) (fuel : Nat) : ∀ (st : VerifyState) (r : Ref)
    (S : String → Prop), st.heap = h0 → unvisitedCount st.graph ≤ fuel →
    CE h0 st.graph S → CE h0 (visit false fuel st r).graph S := by
  induction fuel with
  | zero =>
    intro st r S hh hcnt hce
    unfold visit
    split
    · exact hce
    · next node heq =>
      cases hv : node.visited
      · exact absurd (one_le_unvisited _ _ _ heq hv) (by omega)
      · exact hce
  | succ fuel ih =>
    intro st r S hh hcnt hce
    unfold visit
    split
    · exact hce
    · next node heq =>
      dsimp only
      cases hv : node.visited
      · -- newly marked: fold over the neighbours
        have hkey : resourceIdentifier (st.heap r) = resourceIdentifier (h0 r) := by rw [hh]
        set k := resourceIdentifier (st.heap r) with hk
        have hcnt1 : unvisitedCount (markVisited st.graph k) ≤ fuel := by
          have := unvisited_mark_lt st.graph k node heq hv
          omega
        have hce1 : CE h0 (markVisited st.graph k) (fun k2 => S k2 ∨ k2 = k) :=
          CE_mark h0 st.graph S k hce
        have hstep : ∀ st2 r2, r2 ∈ node.relatedTo →
            (CE h0 st2.graph (fun k2 => S k2 ∨ k2 = k) ∧ st2.heap = h0 ∧
              unvisitedCount st2.graph ≤ fuel ∧
              sameShape (markVisited st.graph k) st2.graph) →
            (CE h0 (visit false fuel st2 r2).graph (fun k2 => S k2 ∨ k2 = k) ∧
              (visit false fuel st2 r2).heap = h0 ∧
              unvisitedCount (visit false fuel st2 r2).graph ≤ fuel ∧
              sameShape (markVisited st.graph k) (visit false fuel st2 r2).graph) := by
          intro st2 r2 _ ⟨hce2, hh2, hcnt2, hsh2⟩
          have hp := visit_pres fuel st2 r2
          exact ⟨ih st2 r2 _ hh2 hcnt2 hce2, hp.1.trans hh2,
            Nat.le_trans hp.2.2.2 hcnt2, sameShape_trans hsh2 hp.2.1⟩
        have hfold := foldl_preserve_mem _ node.relatedTo hstep
          ⟨markVisited st.graph k, if false = true then
            updateHeap st.heap r (st.heap node.included) else st.heap⟩
          ⟨hce1, hh, hcnt1, sameShape_refl _⟩
        set F := node.relatedTo.foldl (visit false fuel)
          ⟨markVisited st.graph k, if false = true then
            updateHeap st.heap r (st.heap node.included) else st.heap⟩ with hF
        obtain ⟨hceF, hhF, _, hshF⟩ := hfold
        -- upgrade: the newly marked key is closed because every neighbour
        -- with a node was hit during the fold
        intro k2 n2 hfind2 hvis2 hS2 r2 hr2 n3 hfind3
        by_cases hk2 : k2 = k
        · subst hk2
          -- n2 has the same edges as the original node
          have hmk : graphFind (markVisited st.graph k) k =
              some ⟨node.included, node.relatedTo, true⟩ := by
            rw [graphFind_mark_self, heq]; rfl
          obtain ⟨n2b, hn2b, _, hrel⟩ := sameShape_some hshF _ _ hmk
          rw [hfind2] at hn2b
          injection hn2b with hn2b
          have hr2' : r2 ∈ node.relatedTo := by
            rw [← hn2b] at hrel
            rw [← hrel]
            exact hr2
          obtain ⟨n3b, hn3b, _, _⟩ := sameShape_some (sameShape_symm hshF) _ _ hfind3
          exact foldl_hit fuel h0 node.relatedTo _ r2 hr2' hh n3b hn3b
        · exact hceF k2 n2 hfind2 hvis2
            (fun hor => match hor with
              | Or.inl hs => hS2 hs
              | Or.inr he => hk2 he) r2 hr2 n3 hfind3
      · exact hce

theorem visit_sound (h0 : Heap) (g0 : List (String × includeNode)) (R : String → Prop)
    (hstep : ∀ k n, graphFind g0 k = some n → R k → ∀ r2 ∈ n.relatedTo,
      ∀ n2, graphFind g0 (resourceIdentifier (h0 r2)) = some n2 →
        R (resourceIdentifier (h0 r2)))
    (fuel : Nat) :
    ∀ (st : VerifyState) (r : Ref), st.heap = h0 → sameShape g0 st.graph →
      (∀ k, visitedIn st.graph k → R k) →
      (∀ n, graphFind st.graph (resourceIdentifier (h0 r)) = some n →
        R (resourceIdentifier (h0 r))) →
      ∀ k, visitedIn (visit false fuel st r).graph k → R k := by
  induction fuel with
  | zero =>
    intro st r hh hsh hvis hpre
    unfold visit
    split
    · exact hvis
    · next node heq =>
      dsimp only
      cases hv : node.visited
      · intro k hk
        rcases visitedIn_mark_inv _ _ _ hk with he | hold
        · subst he
          rw [hh] at heq ⊢
          exact hpre node heq
        · exact hvis k hold
      · exact hvis
  | succ fuel ih =>
    intro st r hh hsh hvis hpre
    unfold visit
    split
    · exact hvis
    · next node heq =>
      dsimp only
      cases hv : node.visited
      · -- the g0 node behind the visited key
        have heq0 : graphFind st.graph (resourceIdentifier (h0 r)) = some node := by
          rw [← hh]; exact heq
        have hRk : R (resourceIdentifier (h0 r)) := hpre node heq0
        obtain ⟨node0, hnode0, _, hrel0⟩ := sameShape_some (sameShape_symm hsh) _ _ heq0
        have hstep2 : ∀ st2 r2, r2 ∈ node.relatedTo →
            ((∀ k, visitedIn st2.graph k → R k) ∧ st2.heap = h0 ∧
              sameShape g0 st2.graph) →
            ((∀ k, visitedIn (visit false fuel st2 r2).graph k → R k) ∧
              (visit false fuel st2 r2).heap = h0 ∧
              sameShape g0 (visit false fuel st2 r2).graph) := by
          intro st2 r2 hr2 ⟨hvis2, hh2, hsh2⟩
          have hp := visit_pres fuel st2 r2
          refine ⟨?_, hp.1.trans hh2, sameShape_trans hsh2 hp.2.1⟩
          apply ih st2 r2 hh2 hsh2 hvis2
          intro n2 hfind2
          obtain ⟨n2g, hn2g, _, _⟩ := sameShape_some (sameShape_symm hsh2) _ _ hfind2
          refine hstep _ node0 hnode0 hRk r2 ?_ n2g hn2g
          rw [hrel0]
          exact hr2
        have hbase : (∀ k, visitedIn (markVisited st.graph
            (resourceIdentifier (st.heap r))) k → R k) := by
          intro k hk
          rcases visitedIn_mark_inv _ _ _ hk with he | hold
          · subst he
            rw [hh] at heq ⊢
            exact hpre node heq
          · exact hvis k hold
        have hshb : sameShape g0 (markVisited st.graph
            (resourceIdentifier (st.heap r))) :=
          sameShape_trans hsh (sameShape_mark _ _)
        exact (foldl_preserve_mem _ node.relatedTo hstep2
          ⟨markVisited st.graph (resourceIdentifier (st.heap r)), st.heap⟩
          ⟨hbase, hh, hshb⟩).1
      · exact hvis

/-- The seed targets of the primary data: the flattened relationship
targets of every primary resource. -/
def seedRefs (h : Heap) : List Ref → List Ref
  | [] => []
  | p :: ps => relatedRefs (h p).relationships ++ seedRefs h ps

theorem seed_pres (fuel : Nat) : ∀ (tops : List Ref) (st : VerifyState),
    Pres st (seedVisits false fuel st tops)
  | [], st => Pres.refl st
  | p :: ps, st => by
    simp only [seedVisits]
    exact Pres.trans
      (foldl_preserve (P := fun st2 => Pres st st2) _
        (fun st2 r2 h => h.trans (visit_pres fuel st2 r2)) _ _ (Pres.refl st))
      (seed_pres fuel ps _)

theorem seed_CE (h0 : Heap) (fuel : Nat) (S : String → Prop) :
    ∀ (tops : List Ref) (st : VerifyState), st.heap = h0 →
      unvisitedCount st.graph ≤ fuel → CE h0 st.graph S →
      CE h0 (seedVisits false fuel st tops).graph S
  | [], st, _, _, hce => hce
  | p :: ps, st, hh, hcnt, hce => by
    simp only [seedVisits]
    have hfold := foldl_preserve (P := fun st2 => CE h0 st2.graph S ∧ st2.heap = h0 ∧
        unvisitedCount st2.graph ≤ fuel) _
      (fun st2 r2 ⟨hce2, hh2, hcnt2⟩ =>
        ⟨visit_CE h0 fuel st2 r2 S hh2 hcnt2 hce2,
          (visit_pres fuel st2 r2).1.trans hh2,
          Nat.le_trans (visit_pres fuel st2 r2).2.2.2 hcnt2⟩)
      (relatedRefs (st.heap p).relationships) st ⟨hce, hh, hcnt⟩
    exact seed_CE h0 fuel S ps _ hfold.2.1 hfold.2.2 hfold.1

theorem seed_sound (h0 : Heap) (g0 : List (String × includeNode)) (R : String → Prop)
    (hstep : ∀ k n, graphFind g0 k = some n → R k → ∀ r2 ∈ n.relatedTo,
      ∀ n2, graphFind g0 (resourceIdentifier (h0 r2)) = some n2 →
        R (resourceIdentifier (h0 r2)))
    (fuel : Nat) :
    ∀ (tops : List Ref) (st : VerifyState), st.heap = h0 → sameShape g0 st.graph →
      (∀ k, visitedIn st.graph k → R k) →
      (∀ r ∈ seedRefs h0 tops, ∀ n, graphFind g0 (resourceIdentifier (h0 r)) = some n →
        R (resourceIdentifier (h0 r))) →
      ∀ k, visitedIn (seedVisits false fuel st tops).graph k → R k
  | [], st, _, _, hvis, _ => hvis
  | p :: ps, st, hh, hsh, hvis, hseed => by
    simp only [seedVisits]
    have hgrp : relatedRefs (st.heap p).relationships = relatedRefs (h0 p).relationships := by
      rw [hh]
    have hfold := foldl_preserve_mem
      (P := fun st2 => (∀ k, visitedIn st2.graph k → R k) ∧ st2.heap = h0 ∧
        sameShape g0 st2.graph)
      _ (relatedRefs (st.heap p).relationships)
      (fun st2 r2 hr2 ⟨hvis2, hh2, hsh2⟩ => by
        have hp := visit_pres fuel st2 r2
        refine ⟨?_, hp.1.trans hh2, sameShape_trans hsh2 hp.2.1⟩
        apply visit_sound h0 g0 R hstep fuel st2 r2 hh2 hsh2 hvis2
        intro n2 hfind2
        obtain ⟨n2g, hn2g, _, _⟩ := sameShape_some (sameShape_symm hsh2) _ _ hfind2
        refine hseed r2 ?_ n2g hn2g
        rw [hgrp] at hr2
        exact List.mem_append.mpr (Or.inl hr2))
      st ⟨hvis, hh, hsh⟩
    exact seed_sound h0 g0 R hstep fuel ps _ hfold.2.1 hfold.2.2 hfold.1
      (fun r hr => hseed r (List.mem_append.mpr (Or.inr hr)))

theorem seed_hit (h0 : Heap) (fuel : Nat) :
    ∀ (tops : List Ref) (st : VerifyState) (r : Ref), st.heap = h0 →
      r ∈ seedRefs h0 tops →
      ∀ n, graphFind st.graph (resourceIdentifier (h0 r)) = some n →
      visitedIn (seedVisits false fuel st tops).graph (resourceIdentifier (h0 r))
  | [], _, r, _, hr, _ => by simp [seedRefs] at hr
  | p :: ps, st, r, hh, hr, n => by
    intro hn
    simp only [seedVisits]
    have hgrp : relatedRefs (st.heap p).relationships = relatedRefs (h0 p).relationships := by
      rw [hh]
    rcases List.mem_append.mp hr with hgl | hgr
    · have h1 := foldl_hit fuel h0 (relatedRefs (st.heap p).relationships) st r
        (by rw [hgrp]; exact hgl) hh n hn
      exact (seed_pres fuel ps _).2.2.1 _ h1
    · have hp : Pres st ((relatedRefs (st.heap p).relationships).foldl
          (visit false fuel) st) :=
        foldl_preserve (P := fun st2 => Pres st st2) _
          (fun st2 r2 h => h.trans (visit_pres fuel st2 r2)) _ _ (Pres.refl st)
      obtain ⟨n2, hn2, _, _⟩ := sameShape_some hp.2.1 _ _ hn
      exact seed_hit h0 fuel ps _ r (hp.1.trans hh) hgr n2 hn2

theorem graphFind_insert_self (g : List (String × includeNode)) (k : String)
    (n : includeNode) : graphFind (graphInsert g k n) k = some n := by
  induction g with
  | nil => simp [graphInsert, graphFind]
  | cons p rest ih =>
    obtain ⟨k2, n2⟩ := p
    simp only [graphInsert]
    by_cases h : k2 = k
    · simp [h, graphFind]
    · simp [h, graphFind, ih]

theorem graphFind_insert_other (g : List (String × includeNode)) (k : String)
    (n : includeNode) (k2 : String) (hne : k2 ≠ k) :
    graphFind (graphInsert g k n) k2 = graphFind g k2 := by
  induction g with
  | nil =>
    simp only [graphInsert, graphFind]
    rw [if_neg (fun hh => hne hh.symm)]
  | cons p rest ih =>
    obtain ⟨k3, n3⟩ := p
    simp only [graphInsert]
    by_cases h : k3 = k
    · subst h
      rw [if_pos rfl]
      simp only [graphFind]
      rw [if_neg (fun hh => hne hh.symm), if_neg (fun hh => hne hh.symm)]
    · rw [if_neg h]
      simp only [graphFind]
      by_cases h2 : k3 = k2
      · simp [h2]
      · simp [h2, ih]

theorem buildGraph_find_mem (heap : Heap) : ∀ (incs : List Ref)
    (g : List (String × includeNode)) (k : String) (n : includeNode),
    graphFind (buildGraph heap incs g) k = some n →
    (∃ inc ∈ incs, resourceIdentifier (heap inc) = k ∧
      n = ⟨inc, relatedRefs (heap inc).relationships, false⟩) ∨
    graphFind g k = some n
  | [], _, _, _, h => Or.inr h
  | inc :: rest, g, k, n, h => by
    rcases buildGraph_find_mem heap rest _ k n h with hl | hr
    · obtain ⟨inc2, hm, hid, hn⟩ := hl
      exact Or.inl ⟨inc2, List.mem_cons_of_mem _ hm, hid, hn⟩
    · by_cases he : k = resourceIdentifier (heap inc)
      · subst he
        rw [graphFind_insert_self] at hr
        injection hr with hr
        exact Or.inl ⟨inc, List.mem_cons_self _ _, rfl, hr.symm⟩
      · rw [graphFind_insert_other _ _ _ _ he] at hr
        exact Or.inr hr

theorem buildGraph_presence (heap : Heap) : ∀ (incs : List Ref)
    (g : List (String × includeNode)) (k : String),
    (∃ n, graphFind g k = some n) →
    ∃ n, graphFind (buildGraph heap incs g) k = some n
  | [], _, _, h => h
  | inc :: rest, g, k, h => by
    apply buildGraph_presence heap rest
    by_cases he : k = resourceIdentifier (heap inc)
    · subst he
      exact ⟨_, graphFind_insert_self _ _ _⟩
    · rw [graphFind_insert_other _ _ _ _ he]
      exact h

theorem buildGraph_mem_find (heap : Heap) : ∀ (incs : List Ref)
    (g : List (String × includeNode)) (inc : Ref), inc ∈ incs →
    ∃ n, graphFind (buildGraph heap incs g) (resourceIdentifier (heap inc)) = some n
  | [], _, inc, h => absurd h (by simp)
  | inc2 :: rest, g, inc, h => by
    rcases List.mem_cons.mp h with he | hm
    · subst he
      exact buildGraph_presence heap rest _ _ ⟨_, graphFind_insert_self _ _ _⟩
    · exact buildGraph_mem_find heap rest _ inc hm

theorem graphInsert_keys_mem (g : List (String × includeNode)) (k : String)
    (n : includeNode) (x : String) :
    x ∈ (graphInsert g k n).map Prod.fst ↔ x = k ∨ x ∈ g.map Prod.fst := by
  induction g with
  | nil => simp [graphInsert]
  | cons p rest ih =>
    obtain ⟨k2, n2⟩ := p
    simp only [graphInsert]
    by_cases h : k2 = k
    · subst h
      simp
    · simp only [if_neg h, List.map_cons, List.mem_cons, ih]
      tauto

theorem graphInsert_keys_nodup (g : List (String × includeNode)) (k : String)
    (n : includeNode) (h : (g.map Prod.fst).Nodup) :
    ((graphInsert g k n).map Prod.fst).Nodup := by
  induction g with
  | nil => simp [graphInsert]
  | cons p rest ih =>
    obtain ⟨k2, n2⟩ := p
    simp only [List.map_cons, List.nodup_cons] at h
    simp only [graphInsert]
    by_cases he : k2 = k
    · subst he
      rw [if_pos rfl]
      simp only [List.map_cons, List.nodup_cons]
      exact h
    · simp only [if_neg he, List.map_cons, List.nodup_cons]
      refine ⟨fun hmem => ?_, ih h.2⟩
      rcases (graphInsert_keys_mem rest k n k2).mp hmem with h1 | h1
      · exact he h1
      · exact h.1 h1

theorem buildGraph_keys_nodup (heap : Heap) : ∀ (incs : List Ref)
    (g : List (String × includeNode)), (g.map Prod.fst).Nodup →
    ((buildGraph heap incs g).map Prod.fst).Nodup
  | [], _, h => h
  | inc :: rest, g, h =>
    buildGraph_keys_nodup heap rest _ (graphInsert_keys_nodup _ _ _ h)

theorem markVisited_keys (g : List (String × includeNode)) (k : String) :
    (markVisited g k).map Prod.fst = g.map Prod.fst := by
  induction g with
  | nil => rfl
  | cons p rest ih =>
    obtain ⟨k2, n⟩ := p
    simp only [markVisited]
    by_cases h : k2 = k
    · simp [h]
    · simp [h, ih]

theorem visit_keys (fuel : Nat) : ∀ (st : VerifyState) (r : Ref),
    (visit false fuel st r).graph.map Prod.fst = st.graph.map Prod.fst := by
  induction fuel with
  | zero =>
    intro st r
    unfold visit
    split
    · rfl
    · next node heq =>
      dsimp only
      cases hv : node.visited
      · exact markVisited_keys _ _
      · rfl
  | succ fuel ih =>
    intro st r
    unfold visit
    split
    · rfl
    · next node heq =>
      dsimp only
      cases hv : node.visited
      · have hfold := foldl_preserve
          (P := fun st2 => st2.graph.map Prod.fst = st.graph.map Prod.fst) _
          (fun st2 r2 h => (ih st2 r2).trans h) node.relatedTo
          ⟨markVisited st.graph (resourceIdentifier (st.heap r)), st.heap⟩
          (markVisited_keys _ _)
        exact hfold
      · rfl

theorem seed_keys (fuel : Nat) : ∀ (tops : List Ref) (st : VerifyState),
    (seedVisits false fuel st tops).graph.map Prod.fst = st.graph.map Prod.fst
  | [], _ => rfl
  | p :: ps, st => by
    simp only [seedVisits]
    exact (seed_keys fuel ps _).trans
      (foldl_preserve
        (P := fun st2 => st2.graph.map Prod.fst = st.graph.map Prod.fst) _
        (fun st2 r2 h => (visit_keys fuel st2 r2).trans h) _ st rfl)

theorem graphFind_some_mem : ∀ (g : List (String × includeNode)) (k : String)
    (n : includeNode), graphFind g k = some n → (k, n) ∈ g
  | [], _, _, h => by simp [graphFind] at h
  | (k2, n2) :: rest, k, n, h => by
    simp only [graphFind] at h
    by_cases he : k2 = k
    · rw [if_pos he] at h
      injection h with h
      subst he
      subst h
      exact List.mem_cons_self _ _
    · rw [if_neg he] at h
      exact List.mem_cons_of_mem _ (graphFind_some_mem rest k n h)

theorem mem_graphFind_of_nodup : ∀ (g : List (String × includeNode)),
    (g.map Prod.fst).Nodup → ∀ (k : String) (n : includeNode),
    (k, n) ∈ g → graphFind g k = some n
  | [], _, _, _, h => absurd h (by simp)
  | (k2, n2) :: rest, hnd, k, n, h => by
    simp only [List.map_cons, List.nodup_cons] at hnd
    simp only [graphFind]
    rcases List.mem_cons.mp h with he | hm
    · injection he with he1 he2
      subst he1
      subst he2
      rw [if_pos rfl]
    · by_cases he : k2 = k
      · subst he
        exact absurd (List.mem_map_of_mem Prod.fst hm) hnd.1
      · rw [if_neg he]
        exact mem_graphFind_of_nodup rest hnd.2 k n hm

/-- Transitive reachability of graph keys from the seed targets: a seed
target with a graph node is reachable, and any graph-resident neighbour
of a reachable key is reachable. -/
inductive ReachKey (g0 : List (String × includeNode)) (h0 : Heap)
    (seeds : List Ref) : String → Prop where
  | seed : ∀ r n, r ∈ seeds →
      graphFind g0 (resourceIdentifier (h0 r)) = some n →
      ReachKey g0 h0 seeds (resourceIdentifier (h0 r))
  | step : ∀ k n r n2, ReachKey g0 h0 seeds k → graphFind g0 k = some n →
      r ∈ n.relatedTo →
      graphFind g0 (resourceIdentifier (h0 r)) = some n2 →
      ReachKey g0 h0 seeds (resourceIdentifier (h0 r))

theorem reachKey_find {g0 : List (String × includeNode)} {h0 : Heap}
    {seeds : List Ref} {k : String} (h : ReachKey g0 h0 seeds k) :
    ∃ n, graphFind g0 k = some n := by
  cases h with
  | seed r n hr hn => exact ⟨n, hn⟩
  | step k n r n2 hk hn hr hn2 => exact ⟨n2, hn2⟩

theorem verify_complete (h0 : Heap) (g0 : List (String × includeNode))
    (tops : List Ref) (fuel : Nat)
    (hunv : ∀ k n, graphFind g0 k = some n → n.visited = false)
    (hcnt : unvisitedCount g0 ≤ fuel) :
    ∀ k, ReachKey g0 h0 (seedRefs h0 tops) k →
      visitedIn (seedVisits false fuel ⟨g0, h0⟩ tops).graph k := by
  have hpres := seed_pres fuel tops ⟨g0, h0⟩
  have hshF : sameShape g0 (seedVisits false fuel ⟨g0, h0⟩ tops).graph := hpres.2.1
  have hce0 : CE h0 g0 (fun _ => False) := by
    intro k n hfind hvis
    rw [hunv k n hfind] at hvis
    exact absurd hvis (by simp)
  have hceF : CE h0 (seedVisits false fuel ⟨g0, h0⟩ tops).graph (fun _ => False) :=
    seed_CE h0 fuel _ tops ⟨g0, h0⟩ rfl hcnt hce0
  intro k hk
  induction hk with
  | seed r n hr hn => exact seed_hit h0 fuel tops ⟨g0, h0⟩ r rfl hr n hn
  | step k n r n2 hk hn hr hn2 ih =>
    obtain ⟨nF, hnF, _, hrelF⟩ := sameShape_some hshF _ _ hn
    obtain ⟨nF2, hnF2, hvF⟩ := ih
    rw [hnF] at hnF2
    injection hnF2 with hnF2
    subst hnF2
    obtain ⟨n2F, hn2F, _, _⟩ := sameShape_some hshF _ _ hn2
    exact hceF k nF hnF hvF (fun hf => hf) r (by rw [hrelF]; exact hr) n2F hn2F

theorem verify_sound (h0 : Heap) (g0 : List (String × includeNode))
    (tops : List Ref) (fuel : Nat)
    (hunv : ∀ k n, graphFind g0 k = some n → n.visited = false) :
    ∀ k, visitedIn (seedVisits false fuel ⟨g0, h0⟩ tops).graph k →
      ReachKey g0 h0 (seedRefs h0 tops) k := by
  apply seed_sound h0 g0 (ReachKey g0 h0 (seedRefs h0 tops)) ?_ fuel tops ⟨g0, h0⟩
    rfl (sameShape_refl _) ?_ ?_
  · intro k n hn hk r2 hr2 n2 hn2
    exact ReachKey.step k n r2 n2 hk hn hr2 hn2
  · intro k hk
    obtain ⟨n, hn, hv⟩ := hk
    rw [hunv k n hn] at hv
    exact absurd hv (by simp)
  · intro r hr n hn
    exact ReachKey.seed r n hr hn

theorem g0_unvisited (h0 : Heap) (incs : List Ref) :
    ∀ k n, graphFind (buildGraph h0 incs []) k = some n → n.visited = false := by
  intro k n hn
  rcases buildGraph_find_mem h0 incs [] k n hn with ⟨inc, _, _, hne⟩ | habs
  · rw [hne]
  · simp [graphFind] at habs

theorem verify_invalid_iff (h0 : Heap) (top : HDocTop) (s : String) :
    s ∈ (((seedVisits false (buildGraph h0 top.included []).length
        ⟨buildGraph h0 top.included [], h0⟩
        (getResourceObjectSlice top.data)).graph.filter
        (fun kv => !kv.2.visited)).map Prod.fst) ↔
      ((∃ inc ∈ top.included, resourceIdentifier (h0 inc) = s) ∧
        ¬ ReachKey (buildGraph h0 top.included []) h0
          (seedRefs h0 (getResourceObjectSlice top.data)) s) := by
  set g0 := buildGraph h0 top.included [] with hg0
  set tops := getResourceObjectSlice top.data with htops
  set F := seedVisits false g0.length ⟨g0, h0⟩ tops with hF
  have hunv := g0_unvisited h0 top.included
  have hcnt : unvisitedCount g0 ≤ g0.length := List.length_filter_le _ _
  have hnd0 : (g0.map Prod.fst).Nodup :=
    buildGraph_keys_nodup h0 top.included [] (by simp)
  have hkeys : F.graph.map Prod.fst = g0.map Prod.fst := seed_keys _ _ _
  have hndF : (F.graph.map Prod.fst).Nodup := hkeys ▸ hnd0
  have hsh : sameShape g0 F.graph := (seed_pres g0.length tops ⟨g0, h0⟩).2.1
  constructor
  · intro hmem
    obtain ⟨⟨k, n⟩, hin, hk⟩ := List.mem_map.mp hmem
    have hin2 := List.mem_filter.mp hin
    have hk2 : k = s := hk
    subst hk2
    have hfind : graphFind F.graph k = some n :=
      mem_graphFind_of_nodup _ hndF _ _ hin2.1
    have hvis : n.visited = false := by
      have hb := hin2.2
      simp only [Bool.not_eq_true'] at hb
      exact hb
    obtain ⟨n0, hn0, _, _⟩ := sameShape_some (sameShape_symm hsh) _ _ hfind
    refine ⟨?_, ?_⟩
    · rcases buildGraph_find_mem h0 top.included [] k n0 hn0 with
        ⟨inc, hmem2, hid, _⟩ | habs
      · exact ⟨inc, hmem2, hid⟩
      · simp [graphFind] at habs
    · intro hreach
      obtain ⟨n2, hn2, hv2⟩ :=
        verify_complete h0 g0 tops g0.length hunv hcnt k hreach
      rw [hfind] at hn2
      injection hn2 with hn2
      subst hn2
      rw [hvis] at hv2
      exact absurd hv2 (by simp)
  · rintro ⟨⟨inc, hmem2, hid⟩, hnreach⟩
    obtain ⟨n0, hn0⟩ : ∃ n0, graphFind g0 s = some n0 :=
      hid ▸ buildGraph_mem_find h0 top.included [] inc hmem2
    obtain ⟨n, hn, _, _⟩ := sameShape_some hsh _ _ hn0
    have hvis : n.visited = false := by
      cases hv : n.visited
      · rfl
      · exact absurd (verify_sound h0 g0 tops g0.length hunv s ⟨n, hn, hv⟩) hnreach
    have hmem3 : (s, n) ∈ F.graph := graphFind_some_mem _ _ _ hn
    exact List.mem_map.mpr ⟨(s, n),
      List.mem_filter.mpr ⟨hmem3, by simp [hvis]⟩, rfl⟩

/-- Every included resource's identity is transitively reachable in the
include graph from the primary data's relationship targets. -/
def includedReachable (h0 : Heap) (top : HDocTop) : Prop :=
  ∀ inc ∈ top.included,
    ReachKey (buildGraph h0 top.included []) h0
      (seedRefs h0 (getResourceObjectSlice top.data))
      (resourceIdentifier (h0 inc))

/-- `s` is the identity of an included resource that is not transitively
reachable from the primary data. -/
def unreachableIncluded (h0 : Heap) (top : HDocTop) (s : String) : Prop :=
  (∃ inc ∈ top.included, resourceIdentifier (h0 inc) = s) ∧
    ¬ ReachKey (buildGraph h0 top.included []) h0
      (seedRefs h0 (getResourceObjectSlice top.data)) s

theorem verify_invalid_iff2 (h0 : Heap) (d : HDoc) (incs : List Ref) (s : String) :
    s ∈ (((seedVisits false (buildGraph h0 incs []).length
        ⟨buildGraph h0 incs [], h0⟩
        (getResourceObjectSlice d)).graph.filter
        (fun kv => !kv.2.visited)).map Prod.fst) ↔
      ((∃ inc ∈ incs, resourceIdentifier (h0 inc) = s) ∧
        ¬ ReachKey (buildGraph h0 incs []) h0
          (seedRefs h0 (getResourceObjectSlice d)) s) :=
  verify_invalid_iff h0 ⟨d, incs⟩ s

/-- C3: with `aliasRelationships = false`, on a document with non-empty
`Included` the verifier returns no error exactly when every included
resource is transitively reachable from the primary data through
relationship edges; any error it returns is a partial-linkage error whose
string set is exactly the set of identities (each rendered by
`resourceIdentifier` as "\x7bType: T, ID: I\x7d") of the unreachable
included resources; and a document with empty `Included` is trivially
valid, returned untouched without any traversal. -/
theorem C3_verifyFullLinkage_characterization (h0 : Heap) (top : HDocTop) :
    (top.included = [] → verifyFullLinkage h0 top false = (none, h0)) ∧
    ((verifyFullLinkage h0 top false).1 = none ↔ includedReachable h0 top) ∧
    (∀ l, (verifyFullLinkage h0 top false).1 = some (.partialLinkage l) →
      ∀ s, s ∈ l ↔ unreachableIncluded h0 top s) ∧
    ((verifyFullLinkage h0 top false).1 = none ∨
      ∃ l, (verifyFullLinkage h0 top false).1 = some (.partialLinkage l)) := by
  obtain ⟨data, included⟩ := top
  cases included with
  | nil =>
    refine ⟨fun _ => rfl, ⟨fun _ => ?_, fun _ => rfl⟩, fun l hl => ?_, Or.inl rfl⟩
    · intro inc hmem
      exact absurd hmem (by simp)
    · exact Option.noConfusion hl
  | cons a rest =>
    cases hinv : ((seedVisits false (buildGraph h0 (a :: rest) []).length
        ⟨buildGraph h0 (a :: rest) [], h0⟩
        (getResourceObjectSlice data)).graph.filter
        (fun kv => !kv.2.visited)).map Prod.fst with
    | nil =>
      have hres : (verifyFullLinkage h0 ⟨data, a :: rest⟩ false).1 = none := by
        simp only [verifyFullLinkage]
        rw [hinv]
      refine ⟨fun h => absurd h (by simp), ⟨fun _ => ?_, fun _ => hres⟩,
        fun l hl => ?_, Or.inl hres⟩
      · intro inc hmem
        by_contra hnr
        have hmem2 : resourceIdentifier (h0 inc) ∈
            ((seedVisits false (buildGraph h0 (a :: rest) []).length
              ⟨buildGraph h0 (a :: rest) [], h0⟩
              (getResourceObjectSlice data)).graph.filter
              (fun kv => !kv.2.visited)).map Prod.fst :=
          (verify_invalid_iff2 h0 data (a :: rest) _).mpr ⟨⟨inc, hmem, rfl⟩, hnr⟩
        rw [hinv] at hmem2
        exact absurd hmem2 (by simp)
      · rw [hres] at hl
        exact Option.noConfusion hl
    | cons b bs =>
      have hres : (verifyFullLinkage h0 ⟨data, a :: rest⟩ false).1 =
          some (.partialLinkage (b :: bs)) := by
        simp only [verifyFullLinkage]
        rw [hinv]
      refine ⟨fun h => absurd h (by simp), ⟨fun hl => ?_, fun hr => ?_⟩,
        fun l hl => ?_, Or.inr ⟨b :: bs, hres⟩⟩
      · rw [hres] at hl
        exact Option.noConfusion hl
      · exfalso
        have hb : b ∈ ((seedVisits false (buildGraph h0 (a :: rest) []).length
            ⟨buildGraph h0 (a :: rest) [], h0⟩
            (getResourceObjectSlice data)).graph.filter
            (fun kv => !kv.2.visited)).map Prod.fst := by
          rw [hinv]
          exact List.mem_cons_self _ _
        obtain ⟨⟨inc, hmem, hid⟩, hnr⟩ :=
          (verify_invalid_iff2 h0 data (a :: rest) b).mp hb
        exact hnr (hid ▸ hr inc hmem)
      · rw [hres] at hl
        injection hl with hl2
        injection hl2 with hl3
        subst hl3
        intro s
        rw [← hinv]
        exact verify_invalid_iff2 h0 data (a :: rest) s

/-- C1: the shape-sniff pass resolves the top-level `data` key case by
case: an empty top-level object fails with the missing-data error; an
absent `data` key, or one holding `null` or a non-empty object, yields
no error and leaves the shape single (`hasMany` false); a `data` key
holding an empty object fails with the invalid-data error; a `data` key
holding any array yields the many-resource shape (`hasMany` true). -/
theorem C1_sniff_cases :
    (tryUnmarshalEmpty (.obj []) = .error .missingDataField) ∧
    (∀ p rest, lookupLast (p :: rest) "data" = none →
      tryUnmarshalEmpty (.obj (p :: rest)) = .ok false) ∧
    (∀ kvs, lookupLast kvs "data" = some .null →
      tryUnmarshalEmpty (.obj kvs) = .ok false) ∧
    (∀ kvs e es, lookupLast kvs "data" = some (.obj (e :: es)) →
      tryUnmarshalEmpty (.obj kvs) = .ok false) ∧
    (∀ kvs, lookupLast kvs "data" = some (.obj []) →
      tryUnmarshalEmpty (.obj kvs) = .error .invalidDataField) ∧
    (∀ kvs xs, lookupLast kvs "data" = some (.arr xs) →
      tryUnmarshalEmpty (.obj kvs) = .ok true) := by
  refine ⟨rfl, ?_, ?_, ?_, ?_, ?_⟩
  · intro p rest h
    simp only [tryUnmarshalEmpty]
    rw [h]
  · intro kvs h
    cases kvs with
    | nil => exact Option.noConfusion h
    | cons p rest =>
      simp only [tryUnmarshalEmpty]
      rw [h]
  · intro kvs e es h
    cases kvs with
    | nil => exact Option.noConfusion h
    | cons p rest =>
      simp only [tryUnmarshalEmpty]
      rw [h]
  · intro kvs h
    cases kvs with
    | nil => exact Option.noConfusion h
    | cons p rest =>
      simp only [tryUnmarshalEmpty]
      rw [h]
  · intro kvs xs h
    cases kvs with
    | nil => exact Option.noConfusion h
    | cons p rest =>
      simp only [tryUnmarshalEmpty]
      rw [h]

theorem C1_sniff_cases_witness :
    tryUnmarshalEmpty (.obj [("meta", .num 1)]) = .ok false ∧
    tryUnmarshalEmpty (.obj [("data", .null), ("x", .num 2)]) = .ok false ∧
    tryUnmarshalEmpty (.obj [("data", .obj [("type", .str "a")])]) = .ok false ∧
    tryUnmarshalEmpty (.obj [("data", .obj [])]) = .error .invalidDataField ∧
    tryUnmarshalEmpty (.obj [("data", .arr [])]) = .ok true :=
  ⟨C1_sniff_cases.2.1 ("meta", .num 1) [] rfl,
   C1_sniff_cases.2.2.1 [("data", .null), ("x", .num 2)] rfl,
   C1_sniff_cases.2.2.2.1 [("data", .obj [("type", .str "a")])] ("type", .str "a") [] rfl,
   C1_sniff_cases.2.2.2.2.1 [("data", .obj [])] rfl,
   C1_sniff_cases.2.2.2.2.2 [("data", .arr [])] [] rfl⟩

/-- C2: a document with a non-empty `Errors` list marshals to an object
with no top-level `data` entry at all, whatever `dataOne` and `dataMany`
hold. -/
theorem C2_errors_suppress_data (d : document) (h : d.errors ≠ []) :
    ∃ entries, marshalDoc d = .obj entries ∧ ∀ p ∈ entries, p.1 ≠ "data" := by
  obtain ⟨hm, d1, dm, me, ja, er, li, inc⟩ := d
  cases er with
  | nil => exact absurd rfl h
  | cons e es =>
    exact ⟨_, rfl, docRest_ne_data me ja _ (e :: es) li _ inc⟩

theorem C2_errors_suppress_data_witness :
    ∃ entries,
      marshalDoc (.mk false (some (.mk "1" "widgets" [] [] none none)) []
        none none [ErrorObject.mk (.obj [("title", .str "boom")])] none []) =
        .obj entries ∧
      ∀ p ∈ entries, p.1 ≠ "data" :=
  C2_errors_suppress_data _ (List.cons_ne_nil _ _)

/-- C5: a well-formed document with the single-resource shape round-trips
through marshal and decode to a document with the same shape and the
identical `dataOne` resource (all of type, id, attributes, relationships,
meta and links preserved, the whole document recovered exactly). -/
theorem C5_roundtrip_one (d : document) (ro : resourceObject)
    (h : wfDoc d = true) (hm : d.hasMany = false) (h1 : d.dataOne = some ro) :
    ∃ d2, decodeDoc (marshalDoc d) = .ok d2 ∧ d2 = d ∧
      d2.hasMany = false ∧ d2.dataOne = some ro :=
  ⟨d, rt_doc d h, rfl, hm, h1⟩

theorem C5_roundtrip_one_witness :
    wfDoc (.mk false (some (.mk "1" "widgets" [("name", .str "w")]
        [] (some (.obj [("m", .num 1)])) none)) [] none none [] none []) = true ∧
    ∃ d2, decodeDoc (marshalDoc (.mk false (some (.mk "1" "widgets"
        [("name", .str "w")] [] (some (.obj [("m", .num 1)])) none)) []
        none none [] none [])) = .ok d2 ∧
      d2 = (.mk false (some (.mk "1" "widgets" [("name", .str "w")]
        [] (some (.obj [("m", .num 1)])) none)) [] none none [] none []) ∧
      d2.hasMany = false ∧
      d2.dataOne = some (.mk "1" "widgets" [("name", .str "w")]
        [] (some (.obj [("m", .num 1)])) none) :=
  ⟨by decide, C5_roundtrip_one _ _ (by decide) rfl rfl⟩

/-- C6: a well-formed document with the many-resource shape and an empty
`dataMany` round-trips through marshal and decode to a document whose
shape is still Many with an empty list — not the no-primary-data shape. -/
theorem C6_roundtrip_many_empty (d : document) (h : wfDoc d = true)
    (hm : d.hasMany = true) (hd : d.dataMany = []) :
    ∃ d2, decodeDoc (marshalDoc d) = .ok d2 ∧ d2 = d ∧
      d2.hasMany = true ∧ d2.dataMany = [] :=
  ⟨d, rt_doc d h, rfl, hm, hd⟩

theorem C6_roundtrip_many_empty_witness :
    wfDoc (.mk true none [] none none [] none []) = true ∧
    ∃ d2, decodeDoc (marshalDoc (.mk true none [] none none [] none [])) =
        .ok d2 ∧
      d2 = (.mk true none [] none none [] none []) ∧
      d2.hasMany = true ∧ d2.dataMany = [] :=
  ⟨by decide, C6_roundtrip_many_empty _ (by decide) rfl rfl⟩

/-- C7: `Link.check`'s emptiness rules (`nil`, the empty string, and a
`LinkObject` with empty href are empty), its outcomes (both empty fails
with the missing-link-fields error; exactly one empty nulls that one out
and keeps the other unchanged; neither empty leaves the link as is), and
its type errors (a value of any other dynamic type, or a `LinkObject`
with a non-struct non-map meta, is a type error, surfaced from whichever
of `self`/`related` fails first). -/
theorem C7_link_check (l : Link) :
    (checkLinkValue .nil = .ok true) ∧
    (∀ s, checkLinkValue (.str s) = .ok (s == "")) ∧
    (∀ href m, checkMeta m = none →
      checkLinkValue (.linkObject href m) = .ok (href == "")) ∧
    (∀ t, checkLinkValue (.other t) =
      .error (.typeError t ["*LinkObject", "string"])) ∧
    (∀ href n, checkLinkValue (.linkObject href (.other n)) =
      .error (.typeError n ["struct", "map"])) ∧
    (checkLinkValue l.self = .ok true → checkLinkValue l.related = .ok true →
      Link.check l = .error .missingLinkFields) ∧
    (checkLinkValue l.self = .ok true → checkLinkValue l.related = .ok false →
      Link.check l = .ok { l with self := .nil }) ∧
    (checkLinkValue l.self = .ok false → checkLinkValue l.related = .ok true →
      Link.check l = .ok { l with related := .nil }) ∧
    (checkLinkValue l.self = .ok false → checkLinkValue l.related = .ok false →
      Link.check l = .ok l) ∧
    (∀ e, checkLinkValue l.self = .error e → Link.check l = .error e) ∧
    (∀ e b, checkLinkValue l.self = .ok b → checkLinkValue l.related = .error e →
      Link.check l = .error e) := by
  refine ⟨rfl, fun s => rfl, ?_, fun t => rfl, fun href n => rfl,
    ?_, ?_, ?_, ?_, ?_, ?_⟩
  · intro href m hm
    simp only [checkLinkValue, hm]
  · intro h1 h2
    simp only [Link.check, h1, h2]
    rfl
  · intro h1 h2
    simp only [Link.check, h1, h2]
    rfl
  · intro h1 h2
    simp only [Link.check, h1, h2]
    rfl
  · intro h1 h2
    simp only [Link.check, h1, h2]
    rfl
  · intro e h1
    simp only [Link.check, h1]
  · intro e b h1 h2
    simp only [Link.check, h1, h2]

theorem C7_link_check_witness :
    Link.check ⟨.nil, .str "", "", "", "", ""⟩ = .error .missingLinkFields ∧
    Link.check ⟨.str "", .str "/b", "", "", "", ""⟩ =
      .ok ⟨.nil, .str "/b", "", "", "", ""⟩ ∧
    Link.check ⟨.str "/a", .linkObject "" .nil, "", "", "", ""⟩ =
      .ok ⟨.str "/a", .nil, "", "", "", ""⟩ ∧
    Link.check ⟨.str "/a", .linkObject "/b" (.mapLike "map"), "", "", "", ""⟩ =
      .ok ⟨.str "/a", .linkObject "/b" (.mapLike "map"), "", "", "", ""⟩ ∧
    Link.check ⟨.other "int", .str "/b", "", "", "", ""⟩ =
      .error (.typeError "int" ["*LinkObject", "string"]) ∧
    Link.check ⟨.str "/a", .linkObject "/b" (.other "int"), "", "", "", ""⟩ =
      .error (.typeError "int" ["struct", "map"]) :=
  ⟨(C7_link_check ⟨.nil, .str "", "", "", "", ""⟩).2.2.2.2.2.1 rfl rfl,
   (C7_link_check ⟨.str "", .str "/b", "", "", "", ""⟩).2.2.2.2.2.2.1 rfl rfl,
   (C7_link_check ⟨.str "/a", .linkObject "" .nil, "", "", "", ""⟩).2.2.2.2.2.2.2.1
     rfl rfl,
   (C7_link_check ⟨.str "/a", .linkObject "/b" (.mapLike "map"), "", "", "", ""⟩
     ).2.2.2.2.2.2.2.2.1 rfl rfl,
   (C7_link_check ⟨.other "int", .str "/b", "", "", "", ""⟩).2.2.2.2.2.2.2.2.2.1
     _ rfl,
   (C7_link_check ⟨.str "/a", .linkObject "/b" (.other "int"), "", "", "", ""⟩
     ).2.2.2.2.2.2.2.2.2.2 _ _ rfl rfl⟩

/-- C8: identifier decode precedence.  Modelled from the spec: a target
implementing the unmarshal-from-string capability has it invoked with the
exact wire string, its error surfaced unchanged; a plain string slot is
assigned the wire string directly; any other target fails with a type
error. -/
theorem C8_identifier_precedence :
    (∀ f st wire st2, f wire = .ok st2 →
      unmarshalIdentifier (.custom f st) wire = .ok (.custom f st2)) ∧
    (∀ f st wire e, f wire = .error e →
      unmarshalIdentifier (.custom f st) wire = .error (.idErr e)) ∧
    (∀ s wire, unmarshalIdentifier (.plainString s) wire =
      .ok (.plainString wire)) ∧
    (∀ t wire, unmarshalIdentifier (.other t) wire =
      .error (.typeError t ["string"])) := by
  refine ⟨?_, ?_, fun s wire => rfl, fun t wire => rfl⟩
  · intro f st wire st2 h
    simp only [unmarshalIdentifier, h]
  · intro f st wire e h
    simp only [unmarshalIdentifier, h]

theorem C8_identifier_precedence_witness :
    unmarshalIdentifier (.custom (fun s => .ok (s ++ "!")) "") "abc" =
      .ok (.custom (fun s => .ok (s ++ "!")) "abc!") ∧
    unmarshalIdentifier (.custom (fun s => .error s) "") "abc" =
      .error (.idErr "abc") ∧
    unmarshalIdentifier (.plainString "old") "new" = .ok (.plainString "new") ∧
    unmarshalIdentifier (.other "int") "x" = .error (.typeError "int" ["string"]) :=
  ⟨C8_identifier_precedence.1 _ "" "abc" _ rfl,
   C8_identifier_precedence.2.1 _ "" "abc" _ rfl,
   C8_identifier_precedence.2.2.1 "old" "new",
   C8_identifier_precedence.2.2.2 "int" "x"⟩

/-- A concrete heap for the cycle scenario: cell 0 is the primary
resource pointing at placeholder cells 3 (a copy of included `a`) and 7
(a copy of included `c`); cells 1 and 2 are the included resources `a`
and `b` referencing each other through placeholder cells 4 and 5; cell 6
is the self-referencing included resource `c` whose relationship points
at placeholder cell 7. -/
def cycleHeap : Heap := fun r =>
  match r with
  | 0 => ⟨"p", "1", [("ra", ⟨false, some 3, []⟩), ("rc", ⟨false, some 7, []⟩)]⟩
  | 1 => ⟨"a", "1", [("rb", ⟨false, some 4, []⟩)]⟩
  | 2 => ⟨"b", "2", [("ra", ⟨false, some 5, []⟩)]⟩
  | 3 => ⟨"a", "1", []⟩
  | 4 => ⟨"b", "2", []⟩
  | 5 => ⟨"a", "1", []⟩
  | 6 => ⟨"c", "3", [("rc", ⟨false, some 7, []⟩)]⟩
  | 7 => ⟨"c", "3", []⟩
  | _ => ⟨"", "", []⟩

/-- The cycle scenario's top-level document: primary data is the single
resource at cell 0; the included list holds `a`, `b` and the
self-referencing `c`. -/
def cycleTop : HDocTop := ⟨⟨false, some 0, []⟩, [1, 2, 6]⟩

/-- C4: on included resources forming cycles (the two-cycle `a -> b`,
`b -> a` and the self-reference `c -> c`), all reachable from the
primary data, the traversal terminates (its result is unchanged by any
recursion-depth budget of at least 2: the visited flag, set before
recursing, cuts every cycle), verification succeeds, and with
`aliasRelationships = true` every relationship placeholder (cells 3, 4,
5 and 7) is overwritten with the full body of the included resource it
names. -/
theorem C4_cycle_termination (fuel : Nat) (hf : 2 ≤ fuel) :
    (verifyFullLinkage cycleHeap cycleTop true).1 = none ∧
    (verifyFullLinkage cycleHeap cycleTop true).2 3 = cycleHeap 1 ∧
    (verifyFullLinkage cycleHeap cycleTop true).2 4 = cycleHeap 2 ∧
    (verifyFullLinkage cycleHeap cycleTop true).2 5 = cycleHeap 1 ∧
    (verifyFullLinkage cycleHeap cycleTop true).2 7 = cycleHeap 6 ∧
    ((seedVisits true fuel ⟨buildGraph cycleHeap cycleTop.included [], cycleHeap⟩
        (getResourceObjectSlice cycleTop.data)).graph =
      (seedVisits true 2 ⟨buildGraph cycleHeap cycleTop.included [], cycleHeap⟩
        (getResourceObjectSlice cycleTop.data)).graph) ∧
    ((seedVisits true fuel ⟨buildGraph cycleHeap cycleTop.included [], cycleHeap⟩
        (getResourceObjectSlice cycleTop.data)).heap 3 =
      (seedVisits true 2 ⟨buildGraph cycleHeap cycleTop.included [], cycleHeap⟩
        (getResourceObjectSlice cycleTop.data)).heap 3) ∧
    ((seedVisits true fuel ⟨buildGraph cycleHeap cycleTop.included [], cycleHeap⟩
        (getResourceObjectSlice cycleTop.data)).heap 4 =
      (seedVisits true 2 ⟨buildGraph cycleHeap cycleTop.included [], cycleHeap⟩
        (getResourceObjectSlice cycleTop.data)).heap 4) ∧
    ((seedVisits true fuel ⟨buildGraph cycleHeap cycleTop.included [], cycleHeap⟩
        (getResourceObjectSlice cycleTop.data)).heap 5 =
      (seedVisits true 2 ⟨buildGraph cycleHeap cycleTop.included [], cycleHeap⟩
        (getResourceObjectSlice cycleTop.data)).heap 5) ∧
    ((seedVisits true fuel ⟨buildGraph cycleHeap cycleTop.included [], cycleHeap⟩
        (getResourceObjectSlice cycleTop.data)).heap 7 =
      (seedVisits true 2 ⟨buildGraph cycleHeap cycleTop.included [], cycleHeap⟩
        (getResourceObjectSlice cycleTop.data)).heap 7) := by
  obtain ⟨k, hk⟩ := Nat.exists_eq_add_of_le hf
  subst hk
  rw [Nat.add_comm 2 k]
  cases k with
  | zero => exact ⟨by decide, by decide, by decide, by decide, by decide,
      rfl, rfl, rfl, rfl, rfl⟩
  | succ m => exact ⟨by decide, by decide, by decide, by decide, by decide,
      rfl, rfl, rfl, rfl, rfl⟩

theorem C4_cycle_termination_witness :
    2 ≤ 5 ∧
    ((verifyFullLinkage cycleHeap cycleTop true).1 = none ∧
      (verifyFullLinkage cycleHeap cycleTop true).2 3 = cycleHeap 1 ∧
      (verifyFullLinkage cycleHeap cycleTop true).2 4 = cycleHeap 2 ∧
      (verifyFullLinkage cycleHeap cycleTop true).2 5 = cycleHeap 1 ∧
      (verifyFullLinkage cycleHeap cycleTop true).2 7 = cycleHeap 6 ∧
      ((seedVisits true 5 ⟨buildGraph cycleHeap cycleTop.included [], cycleHeap⟩
          (getResourceObjectSlice cycleTop.data)).graph =
        (seedVisits true 2 ⟨buildGraph cycleHeap cycleTop.included [], cycleHeap⟩
          (getResourceObjectSlice cycleTop.data)).graph) ∧
      ((seedVisits true 5 ⟨buildGraph cycleHeap cycleTop.included [], cycleHeap⟩
          (getResourceObjectSlice cycleTop.data)).heap 3 =
        (seedVisits true 2 ⟨buildGraph cycleHeap cycleTop.included [], cycleHeap⟩
          (getResourceObjectSlice cycleTop.data)).heap 3) ∧
      ((seedVisits true 5 ⟨buildGraph cycleHeap cycleTop.included [], cycleHeap⟩
          (getResourceObjectSlice cycleTop.data)).heap 4 =
        (seedVisits true 2 ⟨buildGraph cycleHeap cycleTop.included [], cycleHeap⟩
          (getResourceObjectSlice cycleTop.data)).heap 4) ∧
      ((seedVisits true 5 ⟨buildGraph cycleHeap cycleTop.included [], cycleHeap⟩
          (getResourceObjectSlice cycleTop.data)).heap 5 =
        (seedVisits true 2 ⟨buildGraph cycleHeap cycleTop.included [], cycleHeap⟩
          (getResourceObjectSlice cycleTop.data)).heap 5) ∧
      ((seedVisits true 5 ⟨buildGraph cycleHeap cycleTop.included [], cycleHeap⟩
          (getResourceObjectSlice cycleTop.data)).heap 7 =
        (seedVisits true 2 ⟨buildGraph cycleHeap cycleTop.included [], cycleHeap⟩
          (getResourceObjectSlice cycleTop.data)).heap 7)) :=
  ⟨by decide, C4_cycle_termination 5 (by decide)⟩

/-- A concrete heap mixing a reachable included resource with an orphan:
cell 0 is the primary resource pointing at placeholder cell 3 (a copy of
included `a`); cell 1 is included `a`, self-referencing through
placeholder cell 4; cell 2 is included `c`, referenced by nothing. -/
def orphanHeap : Heap := fun r =>
  match r with
  | 0 => ⟨"p", "1", [("ra", ⟨false, some 3, []⟩)]⟩
  | 1 => ⟨"a", "1", [("self", ⟨false, some 4, []⟩)]⟩
  | 2 => ⟨"c", "3", []⟩
  | 3 => ⟨"a", "1", []⟩
  | 4 => ⟨"a", "1", []⟩
  | _ => ⟨"", "", []⟩

/-- The orphan scenario's top-level document: primary data is the single
resource at cell 0; the included list holds the reachable `a` and the
orphaned `c`. -/
def orphanTop : HDocTop := ⟨⟨false, some 0, []⟩, [1, 2]⟩

/-- C9: with `aliasRelationships = true` on a document containing both a
reachable included resource and an orphaned one, verification fails with
the partial-linkage error naming exactly the orphan, yet the
relationship placeholders reachable from primary data (cells 3 and 4)
have already been overwritten with the full included body — the heap
mutation was not rolled back, so the failing operation is not atomic
(the returned heap differs from the input heap). -/
theorem C9_alias_not_rolled_back :
    (verifyFullLinkage orphanHeap orphanTop true).1 =
      some (.partialLinkage ["\x7bType: c, ID: 3\x7d"]) ∧
    (verifyFullLinkage orphanHeap orphanTop true).2 3 = orphanHeap 1 ∧
    (verifyFullLinkage orphanHeap orphanTop true).2 4 = orphanHeap 1 ∧
    (verifyFullLinkage orphanHeap orphanTop true).2 3 ≠ orphanHeap 3 := by
  refine ⟨by decide, by decide, by decide, by decide⟩

/-- A JSON value that is neither `null`, an object, nor an array. -/
def isScalar : JValue → Bool
  | .str _ => true
  | .num _ => true
  | .bool _ => true
  | _ => false

/-- C10 (amended): when the top-level `data` key holds a scalar (neither
`null`, an object, nor an array), the shape-sniff pass succeeds with the
single-resource shape; the typed decode rejects the scalar data slot
itself only with a generic unmarshal error — in particular a document
consisting of just that `data` key is rejected with a generic unmarshal
error, never the invalid-data error.  (The original claim's "any
rejection of such a document" is too strong: other parts of the document
can still surface the invalid-data error, see the counterexample.) -/
theorem C10_scalar_data_sniff (kvs : List (String × JValue)) (v : JValue)
    (h : lookupLast kvs "data" = some v) (hs : isScalar v = true) :
    tryUnmarshalEmpty (.obj kvs) = .ok false ∧
    (∃ msg, decodeRes v = .error (.jsonErr msg)) ∧
    (∀ e, decodeDoc (.obj [("data", v)]) = .error e → ∃ msg, e = .jsonErr msg) := by
  have hsniff : tryUnmarshalEmpty (.obj kvs) = .ok false := by
    cases kvs with
    | nil => exact Option.noConfusion h
    | cons p rest =>
      cases v with
      | str s => simp only [tryUnmarshalEmpty]; rw [h]
      | num n => simp only [tryUnmarshalEmpty]; rw [h]
      | bool b => simp only [tryUnmarshalEmpty]; rw [h]
      | null => exact absurd hs (by simp [isScalar])
      | arr xs => exact absurd hs (by simp [isScalar])
      | obj l => exact absurd hs (by simp [isScalar])
  refine ⟨hsniff, ?_, ?_⟩
  · cases v with
    | str s => exact ⟨_, rfl⟩
    | num n => exact ⟨_, rfl⟩
    | bool b => exact ⟨_, rfl⟩
    | null => exact absurd hs (by simp [isScalar])
    | arr xs => exact absurd hs (by simp [isScalar])
    | obj l => exact absurd hs (by simp [isScalar])
  · intro e he
    cases v with
    | str s =>
      rw [show decodeDoc (.obj [("data", .str s)]) =
        .error (.jsonErr "cannot unmarshal value into resourceObject") from rfl] at he
      injection he with he2
      exact ⟨_, he2.symm⟩
    | num n =>
      rw [show decodeDoc (.obj [("data", .num n)]) =
        .error (.jsonErr "cannot unmarshal value into resourceObject") from rfl] at he
      injection he with he2
      exact ⟨_, he2.symm⟩
    | bool b =>
      rw [show decodeDoc (.obj [("data", .bool b)]) =
        .error (.jsonErr "cannot unmarshal value into resourceObject") from rfl] at he
      injection he with he2
      exact ⟨_, he2.symm⟩
    | null => exact absurd hs (by simp [isScalar])
    | arr xs => exact absurd hs (by simp [isScalar])
    | obj l => exact absurd hs (by simp [isScalar])

theorem C10_scalar_data_sniff_witness :
    tryUnmarshalEmpty (.obj [("data", .num 7)]) = .ok false ∧
    (∃ msg, decodeRes (.num 7) = .error (.jsonErr msg)) ∧
    (∀ e, decodeDoc (.obj [("data", .num 7)]) = .error e →
      ∃ msg, e = .jsonErr msg) :=
  C10_scalar_data_sniff [("data", .num 7)] (.num 7) rfl rfl

/-- C10 counterexample to the original claim: a wire document whose
top-level `data` key holds the scalar `"s"` (the sniff succeeds with the
single-resource shape), yet whose decode is rejected with the
invalid-data error — not a generic unmarshal error — because a nested
relationship document inside `included` holds `"data": \x7b\x7d` and the
nested `document` decode runs the shape sniff too. -/
theorem C10_invalid_data_counterexample :
    lookupLast [("included", .arr [.obj [("relationships",
        .obj [("r", .obj [("data", .obj [])])])]]), ("data", .str "s")]
      "data" = some (.str "s") ∧
    isScalar (.str "s") = true ∧
    tryUnmarshalEmpty (.obj [("included", .arr [.obj [("relationships",
        .obj [("r", .obj [("data", .obj [])])])]]), ("data", .str "s")]) =
      .ok false ∧
    decodeDoc (.obj [("included", .arr [.obj [("relationships",
        .obj [("r", .obj [("data", .obj [])])])]]), ("data", .str "s")]) =
      .error .invalidDataField :=
  ⟨rfl, rfl, rfl, rfl⟩
